import Mathlib

/-!
Verification development for the email-extractor crawler.

The Python source (`core.py`, `api.py`, `worker.py`) is shallowly embedded:
strings are `List Char`, the opaque collaborators (urllib.parse, the HTML
parser, the email_validator library, the HTTP client and the MySQL store)
are modelled as explicit Lean functions or environment oracles, and the
`async` control flow of `crawl_domain` is embedded as a deterministic state
machine that reflects the single-threaded event-loop semantics (a created
task does not run until the creating coroutine reaches an `await`).

All recursion is structural (fuel-based where the source loops on data it
also extends), so every definition evaluates by kernel reduction.
-/

/-- Strings are modelled as lists of characters. -/
abbrev Str := List Char

/-- Coerce a Lean string literal into the model's string type. -/
def str (s : String) : Str := s.data

/-! ## Basic character classes (ASCII, as used by the regexes in `core.py`) -/

def isUpperA (c : Char) : Bool := 'A' ≤ c && c ≤ 'Z'

def isLowerA (c : Char) : Bool := 'a' ≤ c && c ≤ 'z'

def isAlphaA (c : Char) : Bool := isUpperA c || isLowerA c

def isDigitA (c : Char) : Bool := '0' ≤ c && c ≤ '9'

def isAlnumA (c : Char) : Bool := isAlphaA c || isDigitA c

/-- ASCII lowercasing of one character (model of `str.lower` on the ASCII
inputs this development evaluates). -/
def lowerC (c : Char) : Char :=
  if isUpperA c then Char.ofNat (c.toNat + 32) else c

/-- `s.lower()` for the model's strings. -/
def lowerStr (s : Str) : Str := s.map lowerC

/-! ## Basic string operations -/

/-- `leadEq pat s` is true when `s` starts with `pat` (`str.startswith`). -/
def leadEq : Str → Str → Bool
  | [], _ => true
  | _ :: _, [] => false
  | p :: ps, c :: cs => p == c && leadEq ps cs

/-- `hasSub pat s` is true when `pat` occurs as a contiguous substring of
`s` (Python's `pat in s`). -/
def hasSub (pat : Str) : Str → Bool
  | [] => leadEq pat []
  | c :: cs => leadEq pat (c :: cs) || hasSub pat cs

/-- `endEq pat s` is true when `s` ends with `pat` (`str.endswith`). -/
def endEq (pat s : Str) : Bool := leadEq pat.reverse s.reverse

/-- Strip every trailing occurrence of `c` (`str.rstrip` with one char). -/
def rstripChar (c : Char) (s : Str) : Str :=
  (s.reverse.dropWhile (· == c)).reverse

/-- Strip every trailing character drawn from `cs` (`str.rstrip(cs)`). -/
def rstripAny (cs : List Char) (s : Str) : Str :=
  (s.reverse.dropWhile (cs.contains ·)).reverse

/-- Strip characters drawn from `cs` from both ends (`str.strip(cs)`). -/
def stripAny (cs : List Char) (s : Str) : Str :=
  ((s.dropWhile (cs.contains ·)).reverse.dropWhile (cs.contains ·)).reverse

/-- Python whitespace characters (the ASCII ones; `\x0b` = `\v`, `\x0c` = `\f`). -/
def wsChars : List Char := [' ', '\t', '\n', '\x0d', '\x0b', '\x0c']

/-- `str.strip()` with no argument: strip whitespace from both ends. -/
def stripWs (s : Str) : Str := stripAny wsChars s

/-- Fuel-driven worker for `str.replace`: scanning left to right, replace
each non-overlapping occurrence of `p :: ps` by `rep` and continue after
the replaced span.  The fuel is the length of the scanned string, which
always suffices because every step consumes at least one character. -/
def replAux (p : Char) (ps rep : Str) : Nat → Str → Str
  | 0, s => s
  | _ + 1, [] => []
  | n + 1, c :: cs =>
    if p == c && leadEq ps cs then rep ++ replAux p ps rep n (cs.drop ps.length)
    else c :: replAux p ps rep n cs

/-- `s.replace(pat, rep)` for a nonempty pattern: every occurrence is
replaced, scanning left to right (the empty-pattern case of Python's
`str.replace` is never exercised by the source). -/
def replaceAll (pat rep s : Str) : Str :=
  match pat with
  | [] => s
  | p :: ps => replAux p ps rep s.length s

/-- Split at the first occurrence of `c`: `(before, after)` with the
separator dropped; `(s, [])` when `c` does not occur (the shape in which
`str.partition` / `str.split(c, 1)` are used by `urlsplit`). -/
def splitAtFirst (c : Char) (s : Str) : Str × Str :=
  (s.takeWhile (· ≠ c), (s.dropWhile (· ≠ c)).drop 1)

/-- `s.split(c)`: always returns a nonempty list of separator-free pieces. -/
def splitChar (c : Char) : Str → List Str
  | [] => [[]]
  | x :: xs =>
    match splitChar c xs with
    | [] => [[]]
    | h :: t => if x == c then [] :: h :: t else (x :: h) :: t

/-- `c.join(pieces)` for a one-character separator. -/
def joinChar (c : Char) : List Str → Str
  | [] => []
  | [x] => x
  | x :: xs => x ++ c :: joinChar c xs

/-! ## Model of `urllib.parse` (the URL library used by `core.py`)

Modelled from the CPython implementation of `urlsplit` / `urlparse` /
`urlunsplit` / `urlunparse` / `urljoin` for URLs free of control
characters: scheme splitting at the first `:` when the prefix is an ASCII
letter followed by scheme characters, netloc after `//` up to the first of
`/?#`, a `ValueError` (modelled as `Except.error`) when the netloc contains
`[` without `]` or vice versa, fragment split at the first `#`, query at
the first `?`, and `;parameters` split off the last path segment for the
schemes in `uses_params`. -/

structure UrlParts where
  scheme : Str
  netloc : Str
  path : Str
  params : Str
  query : Str
  fragment : Str
  deriving DecidableEq

def schemeChar (c : Char) : Bool :=
  isAlphaA c || isDigitA c || c == '+' || c == '-' || c == '.'

/-- Split a string at its first `:`; `none` when there is no colon. -/
def colonSplit : Str → Option (Str × Str)
  | [] => none
  | c :: cs =>
    if c == ':' then some ([], cs)
    else
      match colonSplit cs with
      | some (a, b) => some (c :: a, b)
      | none => none

/-- The scheme-recognition step of `urlsplit`: returns `(scheme, rest)`,
falling back to the supplied default scheme when no valid scheme prefix is
present.  A found scheme is lowercased. -/
def splitScheme (url : Str) (defScheme : Str) : Str × Str :=
  match colonSplit url with
  | some (before, after) =>
    if before ≠ [] && isAlphaA (before.headD ' ') && before.all schemeChar then
      (lowerStr before, after)
    else (defScheme, url)
  | none => (defScheme, url)

/-- A character that does not terminate the netloc. -/
def netlocChar (c : Char) : Bool := !(c == '/' || c == '?' || c == '#')

def uses_relative : List Str :=
  ["", "ftp", "http", "gopher", "nntp", "imap", "wais", "file", "https",
   "shttp", "mms", "prospero", "rtsp", "rtsps", "rtspu", "sftp", "svn",
   "svn+ssh", "ws", "wss"].map String.data

def uses_netloc : List Str :=
  ["", "ftp", "http", "gopher", "nntp", "telnet", "imap", "wais", "file",
   "mms", "https", "shttp", "snews", "prospero", "rtsp", "rtsps", "rtspu",
   "rsync", "svn", "svn+ssh", "sftp", "nfs", "git", "git+ssh", "ws",
   "wss"].map String.data

def uses_params : List Str :=
  ["", "ftp", "hdl", "prospero", "http", "imap", "https", "shttp", "rtsp",
   "rtsps", "rtspu", "sip", "sips", "mms", "sftp", "tel"].map String.data

/-- The `ValueError` check of `urlsplit`: a `[` without `]` or vice versa. -/
def badBrackets (netloc : Str) : Bool :=
  (netloc.contains '[' && !netloc.contains ']') ||
  (netloc.contains ']' && !netloc.contains '[')

/-- The netloc/fragment/query stage of `urlsplit`, after the scheme has
been recognised. -/
def urlsplitAfterScheme (scheme rest : Str) :
    Except Unit (Str × Str × Str × Str × Str) :=
  let (netloc, rest) :=
    if leadEq (str "//") rest then
      let r := rest.drop 2
      (r.takeWhile netlocChar, r.dropWhile netlocChar)
    else ([], rest)
  if badBrackets netloc then
    .error ()
  else
    let (rest, fragment) := splitAtFirst '#' rest
    let (path, query) := splitAtFirst '?' rest
    .ok (scheme, netloc, path, query, fragment)

/-- `urlsplit(url, scheme=defScheme)`: `(scheme, netloc, rest-path, query,
fragment)`, or an error for an invalid bracketed netloc. -/
def urlsplitM (url : Str) (defScheme : Str) :
    Except Unit (Str × Str × Str × Str × Str) :=
  let (scheme, rest) := splitScheme url defScheme
  urlsplitAfterScheme scheme rest

/-- `_splitparams(url)`: split `;parameters` off the last path segment.
Only reached when `;` occurs in the path. -/
def splitparamsPy (p : Str) : Str × Str :=
  if p.contains '/' then
    let rev := p.reverse
    let lastSeg := (rev.takeWhile (· ≠ '/')).reverse
    let pre := (rev.dropWhile (· ≠ '/')).reverse
    if lastSeg.contains ';' then
      (pre ++ lastSeg.takeWhile (· ≠ ';'), (lastSeg.dropWhile (· ≠ ';')).drop 1)
    else (p, [])
  else
    (p.takeWhile (· ≠ ';'), (p.dropWhile (· ≠ ';')).drop 1)

/-- `urlparse(url, scheme=defScheme)`. -/
def urlparseM (url : Str) (defScheme : Str) : Except Unit UrlParts :=
  match urlsplitM url defScheme with
  | .error e => .error e
  | .ok (scheme, netloc, path, query, fragment) =>
    if uses_params.contains scheme && path.contains ';' then
      .ok ⟨scheme, netloc, (splitparamsPy path).1, (splitparamsPy path).2,
           query, fragment⟩
    else
      .ok ⟨scheme, netloc, path, [], query, fragment⟩

/-- `urlunsplit((scheme, netloc, url, query, fragment))` (modern CPython
rewrite): with a nonempty netloc, emit `//netloc` and an absolute path;
with an empty netloc, first *preserve* a path that itself starts with
`//` by re-emitting the `//` marker in front of it, and otherwise emit
`//` for a `uses_netloc` scheme whose path is empty or absolute. -/
def urlunsplitM (scheme netloc path query fragment : Str) : Str :=
  let u :=
    if netloc ≠ [] then
      let p2 := if path ≠ [] && !leadEq (str "/") path then '/' :: path else path
      str "//" ++ netloc ++ p2
    else if leadEq (str "//") path then
      str "//" ++ path
    else if scheme ≠ [] && uses_netloc.contains scheme &&
            (path = [] || leadEq (str "/") path) then
      str "//" ++ path
    else path
  let u := if scheme ≠ [] then scheme ++ ':' :: u else u
  let u := if query ≠ [] then u ++ '?' :: query else u
  if fragment ≠ [] then u ++ '#' :: fragment else u

/-- `urlunparse`: rejoin `;parameters` to the path, then `urlunsplit`. -/
def urlunparseM (p : UrlParts) : Str :=
  let pth := if p.params ≠ [] then p.path ++ ';' :: p.params else p.path
  urlunsplitM p.scheme p.netloc pth p.query p.fragment

/-- Resolution of the `..` / `.` segments in `urljoin`'s final step. -/
def resolveSegs (acc : List Str) : List Str → List Str
  | [] => acc
  | seg :: rest =>
    if seg = str ".." then resolveSegs (if acc = [] then acc else acc.dropLast) rest
    else if seg = str "." then resolveSegs acc rest
    else resolveSegs (acc ++ [seg]) rest

/-- `segments[1:-1] = filter(None, segments[1:-1])`: drop empty segments,
keeping the first and last. -/
def filterMiddle : List Str → List Str
  | [] => []
  | [a] => [a]
  | a :: rest => a :: ((rest.dropLast.filter (fun s => s ≠ [])) ++ [rest.getLastD []])

/-- `urljoin(base, url)`: RFC-style resolution as implemented by CPython.
Raises (`Except.error`) exactly when one of its internal `urlparse` calls
raises. -/
def urljoinM (base url : Str) : Except Unit Str :=
  if base = [] then .ok url
  else if url = [] then .ok base
  else
    match urlparseM base [] with
    | .error e => .error e
    | .ok b =>
      match urlparseM url b.scheme with
      | .error e => .error e
      | .ok u =>
        if u.scheme ≠ b.scheme || !uses_relative.contains u.scheme then .ok url
        else
          let netloc0 :=
            if uses_netloc.contains u.scheme then
              if u.netloc ≠ [] then none else some b.netloc
            else some u.netloc
          match netloc0 with
          | none =>
            .ok (urlunparseM ⟨u.scheme, u.netloc, u.path, u.params, u.query, u.fragment⟩)
          | some netloc =>
            if u.path = [] && u.params = [] then
              let query := if u.query = [] then b.query else u.query
              .ok (urlunparseM ⟨u.scheme, netloc, b.path, b.params, query, u.fragment⟩)
            else
              let baseParts0 := splitChar '/' b.path
              let baseParts :=
                if baseParts0.getLastD [] ≠ [] then baseParts0.dropLast else baseParts0
              let segments :=
                if leadEq (str "/") u.path then splitChar '/' u.path
                else filterMiddle (baseParts ++ splitChar '/' u.path)
              let resolved := resolveSegs [] segments
              let resolved :=
                if segments.getLastD [] = str "." || segments.getLastD [] = str ".." then
                  resolved ++ [[]]
                else resolved
              let path := joinChar '/' resolved
              let path := if path = [] then str "/" else path
              .ok (urlunparseM ⟨u.scheme, netloc, path, u.params, u.query, u.fragment⟩)

/-! ## `EmailExtractor.normalize_url` (core.py lines 118–151) -/

/-- The scheme-prepending step of `normalize_url`: `url` unchanged when it
starts with `http://` or `https://`, else `'https://' + url`. -/
def withScheme (url : Str) : Str :=
  if leadEq (str "http://") url || leadEq (str "https://") url then url
  else str "https://" ++ url

/-- The path transformation of `normalize_url`: `path.rstrip('/') or '/'`. -/
def pathFix (q : Str) : Str :=
  if rstripChar '/' q = [] then str "/" else rstripChar '/' q

/-- `EmailExtractor.normalize_url`, translated from the source: return a
falsy (empty) input unchanged; prepend `https://` when neither `http://`
nor `https://` is a prefix; parse; lowercase the netloc and delete every
occurrence of `www.`; strip trailing slashes from the path, substituting
`/` for an emptied path; unparse with empty params, query and fragment.
When the parse raises, return the (possibly already prepended) URL. -/
def normalize_url (url : Str) : Str :=
  if url = [] then url
  else
    let url2 := withScheme url
    match urlparseM url2 [] with
    | .error _ => url2
    | .ok p =>
      let netloc := replaceAll (str "www.") [] (lowerStr p.netloc)
      let path := pathFix p.path
      urlunparseM ⟨p.scheme, netloc, path, [], [], []⟩

/-- `EmailExtractor.extract_domain` (core.py lines 153–167). -/
def extract_domain (url : Str) : Str :=
  match urlparseM url [] with
  | .error _ => []
  | .ok p => replaceAll (str "www.") [] (lowerStr p.netloc)

/-- The excluded resource extensions of `is_valid_url`. -/
def excluded_extensions : List Str :=
  [".pdf", ".jpg", ".jpeg", ".png", ".gif", ".css", ".js", ".ico", ".svg",
   ".zip", ".mp4", ".mp3", ".avi", ".mov", ".wmv", ".flv", ".webm", ".doc",
   ".docx", ".xls", ".xlsx", ".ppt", ".pptx", ".exe", ".dmg", ".apk",
   ".deb", ".rpm"].map String.data

/-- `EmailExtractor.is_valid_url` (core.py lines 169–211): the `in_scope`
check of the spec. -/
def is_valid_url (url : Str) (base_domain : Str) : Bool :=
  match urlparseM url [] with
  | .error _ => false
  | .ok p =>
    if p.scheme = [] || p.netloc = [] then false
    else
      let url_domain := replaceAll (str "www.") [] (lowerStr p.netloc)
      if url_domain ≠ base_domain && !endEq ('.' :: base_domain) url_domain then false
      else !excluded_extensions.any (fun ext => endEq ext (lowerStr p.path))

/-! ## The opaque HTML parser's output

BeautifulSoup is an external collaborator; a parsed document is modelled by
what the source reads off it: the `href` attributes of its `<a>` and
`<area>` tags in document order, and the visible text (`soup.get_text()`).
Python iterates link sets in hash order; the model keeps insertion order,
which is one admissible order and does not affect any membership fact. -/

inductive Tag
  | a
  | area
  deriving DecidableEq

structure HtmlDoc where
  hrefs : List (Tag × Str)
  text : Str

/-- `EmailExtractor.extract_links` (core.py lines 242–286), recursing over
the parsed document's hrefs with the accumulated link set.  A failing
`urljoin` skips the href (the inner `try`); a failing `urlparse` on the
joined URL escapes the `for` loop to the outer handler, which returns the
links accumulated so far. -/
def extract_links_go (base_url base_domain : Str) :
    List (Tag × Str) → List Str → List Str
  | [], acc => acc
  | (_, href) :: rest, acc =>
    if leadEq (str "mailto:") href || leadEq (str "tel:") href ||
       leadEq (str "javascript:") href || leadEq (str "#") href then
      extract_links_go base_url base_domain rest acc
    else
      match urljoinM base_url href with
      | .error _ => extract_links_go base_url base_domain rest acc
      | .ok absolute =>
        match urlparseM absolute [] with
        | .error _ => acc
        | .ok p =>
          let clean := urlunsplitM p.scheme p.netloc p.path [] []
          if is_valid_url clean base_domain then
            extract_links_go base_url base_domain rest
              (if acc.contains clean then acc else acc ++ [clean])
          else extract_links_go base_url base_domain rest acc

def extract_links (doc : HtmlDoc) (base_url base_domain : Str) : List Str :=
  extract_links_go base_url base_domain doc.hrefs []

/-! ## The Email Recognizer (core.py lines 36–50 and 288–353)

The five `OBFUSCATED_PATTERNS` and `EMAIL_PATTERN` are specialised
backtracking matchers with Python `re` semantics (leftmost match, greedy
quantifiers backtracking from the longest candidate, `re.sub` continuing
after each replaced span). -/

/-- `[A-Za-z0-9._%+-]` (the local-part class of the patterns). -/
def localChar (c : Char) : Bool :=
  isAlnumA c || c == '.' || c == '_' || c == '%' || c == '+' || c == '-'

/-- `[A-Za-z0-9.-]` (the host class of the patterns). -/
def domChar (c : Char) : Bool := isAlnumA c || c == '.' || c == '-'

/-- `\s` on the ASCII inputs considered here. -/
def wsChar (c : Char) : Bool := wsChars.contains c

/-- `[A-Z|a-z]`: the `EMAIL_PATTERN` TLD class, which by its literal `|`
also admits the pipe character. -/
def tldChar (c : Char) : Bool := isAlphaA c || c == '|'

/-- `\w` (ASCII): the class deciding `\b` boundaries. -/
def wordChar (c : Char) : Bool := isAlnumA c || c == '_'

/-- One obfuscation rewrite: tokens standing for `@` and `.`, and whether
the pattern carries `re.I`. -/
structure ObfPat where
  tok1 : Str
  tok2 : Str
  ci : Bool

/-- `OBFUSCATED_PATTERNS` (core.py lines 41–50), in substitution order. -/
def OBFUSCATED_PATTERNS : List ObfPat :=
  [⟨str "[at]", str "[dot]", true⟩,
   ⟨str "(at)", str "(dot)", true⟩,
   ⟨str "[AT]", str "[DOT]", false⟩,
   ⟨str "@", str ".", false⟩,
   ⟨str "(a)", str "(dot)", true⟩]

/-- Match a literal token, case-insensitively when `ci`; returns the rest. -/
def matchTok (ci : Bool) : Str → Str → Option Str
  | [], s => some s
  | _ :: _, [] => none
  | t :: ts, c :: cs =>
    if (if ci then lowerC t == lowerC c else t == c) then matchTok ci ts cs
    else none

/-- After `group2`'s greedy run, find the regex's split: the longest
`group2` of length `n ≥ 1` such that `\s* tok2 \s* [A-Za-z]{2,}` matches
what follows.  Returns `(group2, group3, rest-after-match)`. -/
def obfTail (p : ObfPat) (run rest : Str) : Nat → Option (Str × Str × Str)
  | 0 => none
  | n + 1 =>
    let g2 := run.take (n + 1)
    let after := run.drop (n + 1) ++ rest
    let after := after.dropWhile wsChar
    match matchTok p.ci p.tok2 after with
    | some r =>
      let r := r.dropWhile wsChar
      let g3 := r.takeWhile isAlphaA
      if g3.length ≥ 2 then some (g2, g3, r.drop g3.length)
      else obfTail p run rest n
    | none => obfTail p run rest n

/-- Try to match one obfuscation pattern at the start of `s`; on success,
returns the `user@host.tld` replacement and the rest of the text. -/
def tryObf (p : ObfPat) (s : Str) : Option (Str × Str) :=
  let g1 := s.takeWhile localChar
  if g1 = [] then none
  else
    let s1 := (s.dropWhile localChar).dropWhile wsChar
    match matchTok p.ci p.tok1 s1 with
    | none => none
    | some s2 =>
      let s3 := s2.dropWhile wsChar
      let run := s3.takeWhile domChar
      let rest := s3.dropWhile domChar
      match obfTail p run rest run.length with
      | none => none
      | some (g2, g3, after) => some (g1 ++ '@' :: g2 ++ '.' :: g3, after)

/-- `pattern.sub(replacement, text)` for one obfuscation pattern, scanning
left to right; fuel is the text length (every match consumes ≥ 1 char). -/
def obfSubAux (p : ObfPat) : Nat → Str → Str
  | 0, s => s
  | _ + 1, [] => []
  | n + 1, c :: cs =>
    match tryObf p (c :: cs) with
    | some (rep, rest) => rep ++ obfSubAux p n rest
    | none => c :: obfSubAux p n cs

def obfSub (p : ObfPat) (s : Str) : Str := obfSubAux p s.length s

/-- The host part of `EMAIL_PATTERN` after `@…run`: the longest host tail
of length `k` followed by `\.`, a TLD of `t ≥ 2` `[A-Z|a-z]` chars, and a
word boundary.  `tryTld` backtracks the greedy TLD; `emailHost` backtracks
the greedy host run.  Returns `(matched-span-after-run-start, rest)`. -/
def tryTld (tldRun rest : Str) (lastHost : Char) : Nat → Option (Str × Str)
  | 0 => none
  | 1 => none
  | t + 2 =>
    let tld := tldRun.take (t + 2)
    let after := tldRun.drop (t + 2) ++ rest
    let lastC := tld.getLastD lastHost
    let nextW := match after with
                 | [] => false
                 | c :: _ => wordChar c
    if wordChar lastC ≠ nextW then some (tld, after)
    else tryTld tldRun rest lastHost (t + 1)

/-- One backtracking candidate for the host: take `k` chars of the greedy
host run, then require `\.`, a TLD, and the trailing `\b`. -/
def emailHostAt (run rest : Str) (k : Nat) : Option (Str × Str) :=
  let hostTail := run.take k
  match run.drop k ++ rest with
  | '.' :: r =>
    let tldRun := r.takeWhile tldChar
    let tldRest := r.dropWhile tldChar
    match tryTld tldRun tldRest '.' tldRun.length with
    | some (tld, rest') => some (hostTail ++ '.' :: tld, rest')
    | none => none
  | _ => none

def emailHost (run rest : Str) : Nat → Option (Str × Str)
  | 0 => emailHostAt run rest 0
  | k + 1 =>
    match emailHostAt run rest (k + 1) with
    | some x => some x
    | none => emailHost run rest k

/-- Try `EMAIL_PATTERN` at the start of `s`, where `prevW` says whether the
character before `s` is a word character (for the leading `\b`). -/
def emailMatchAt (prevW : Bool) (s : Str) : Option (Str × Str) :=
  if prevW then none
  else
    match s with
    | [] => none
    | c :: cs =>
      if !isAlnumA c then none
      else
        let loc := cs.takeWhile localChar
        match cs.dropWhile localChar with
        | '@' :: h :: r3 =>
          if !isAlnumA h then none
          else
            let run := r3.takeWhile domChar
            let rest := r3.dropWhile domChar
            match emailHost run rest run.length with
            | some (hostPart, rest') =>
              some (c :: loc ++ '@' :: h :: hostPart, rest')
            | none => none
        | _ => none

/-- `EMAIL_PATTERN.findall(text)`, scanning left to right and resuming
after each match; fuel is the text length. -/
def emailFindAux : Nat → Option Char → Str → List Str
  | 0, _, _ => []
  | _ + 1, _, [] => []
  | n + 1, prev, c :: cs =>
    let prevW := match prev with
                 | some pc => wordChar pc
                 | none => false
    match emailMatchAt prevW (c :: cs) with
    | some (m, rest) => m :: emailFindAux n (some (m.getLastD c)) rest
    | none => emailFindAux n (some c) cs

def emailFindall (s : Str) : List Str := emailFindAux s.length none s

/-- `EmailExtractor.extract_emails_from_html` (core.py lines 288–325):
mailto addresses from `<a href>` tags, then the de-obfuscation rewrites in
order over the visible text, then `EMAIL_PATTERN.findall`; the result set
is modelled as a deduplicated list in insertion order. -/
def extract_emails_from_html (doc : HtmlDoc) : List Str :=
  let mailtos := doc.hrefs.foldl
    (fun acc th =>
      match th with
      | (Tag.a, href) =>
        if leadEq (str "mailto:") href then
          let e := stripWs ((href.drop 7).takeWhile (· ≠ '?'))
          if e ≠ [] && !acc.contains e then acc ++ [e] else acc
        else acc
      | (Tag.area, _) => acc)
    []
  let text := OBFUSCATED_PATTERNS.foldl (fun t p => obfSub p t) doc.text
  (emailFindall text).foldl
    (fun acc e => if acc.contains e then acc else acc ++ [e]) mailtos

/-- Modelled from the spec: the external `email_validator` library's
syntactic check (`validate_email(..., check_deliverability=False)`), §4.2's
"syntactic email validator (no DNS or SMTP check)".  The model accepts a
single `@` separating a dot-atom local part from a hostname of at least
two labels whose TLD is alphabetic of length ≥ 2, and returns the address
itself as the normalized form (the source always passes it pre-lowercased). -/
def validAtomChar (c : Char) : Bool :=
  isAlnumA c || c == '_' || c == '%' || c == '+' || c == '-'

def validLocal (l : Str) : Bool :=
  let atoms := splitChar '.' l
  atoms.all (fun a => a ≠ [] && a.all validAtomChar)

def validLabel (l : Str) : Bool :=
  l ≠ [] && l.all (fun c => isAlnumA c || c == '-') &&
  !leadEq (str "-") l && !endEq (str "-") l

def validate_email_model (e : Str) : Option Str :=
  match splitChar '@' e with
  | [l, d] =>
    let labels := splitChar '.' d
    if l ≠ [] && validLocal l && labels.length ≥ 2 && labels.all validLabel &&
       (labels.getLastD []).all isAlphaA && (labels.getLastD []).length ≥ 2 then
      some e
    else none
  | _ => none

/-- `EmailExtractor.normalize_email` (core.py lines 327–353). -/
def normalize_email (email : Str) : Option Str :=
  let e := stripWs (lowerStr email)
  let e := rstripAny ['.', ',', ';', ':', '!', '?'] e
  let e := stripAny ['<', '>', '(', ')', '[', ']', '\x7b', '\x7d', '"', '\'', ' '] e
  validate_email_model e

/-! ## The Domain Crawler (core.py lines 28–33 and 355–502)

The effectful collaborators are an environment of oracles: the HTTP
transport (`none` = transport error: timeout, reset, TLS failure, invalid
response), the success of each database statement, and the clock.  The
database visible to one crawl is its Domain row plus the pages and emails
tables.  `asyncio` control flow is embedded deterministically: a task
created with `create_task` does not run until the creating coroutine
reaches an `await`, and `gather` runs the pending tasks; inside one
`gather` the tasks are run to completion in creation order (one admissible
event-loop schedule — the `visited` check-and-add of `process_url` has no
await point inside it, so the facts proved here hold on every schedule). -/

/-- `EMAIL_PATHS` (core.py lines 28–33): the priority path tokens. -/
def EMAIL_PATHS : List Str :=
  ["/contact", "/about", "/team", "/careers", "/jobs", "/faq", "/privacy",
   "/support", "/legal", "/terms", "/company", "/staff", "/people",
   "/leadership", "/contact-us", "/about-us", "/our-team",
   "/meet-the-team"].map String.data

inductive DomStatus
  | pending
  | crawling
  | completed
  | failed
  deriving DecidableEq

structure DomainRow where
  status : DomStatus
  pages_crawled : Nat
  emails_found : Nat
  error_message : Option Str
  worker_id : Option Str
  locked_at : Option Nat
  deriving DecidableEq

structure PageRow where
  url : Str
  status_code : Nat
  content_type : Option Str
  error_message : Option Str
  deriving DecidableEq

structure EmailRow where
  page_id : Nat
  raw_email : Str
  normalized_email : Str
  deriving DecidableEq

structure Db where
  domainRow : DomainRow
  pages : List PageRow
  emails : List EmailRow
  deriving DecidableEq

/-- An HTTP response as the transport hands it to `fetch_page`: status,
`Content-Type` header, and the (opaquely parsed) body. -/
structure HttpResp where
  status : Nat
  contentType : Str
  doc : HtmlDoc

/-- The world one `crawl_domain` call runs against. -/
structure CrawlEnv where
  http : Str → Option HttpResp
  pageInsertOk : Str → Bool
  emailInsertOk : Bool
  claimOk : Bool
  claimErrMsg : Str
  completeOk : Bool
  completeErrMsg : Str
  failUpdateOk : Bool
  now : Nat
  fuel : Nat

/-- `EmailExtractor.fetch_page` (core.py lines 213–240): on a transport
error return `(None, 0)`; on a response, return the body only when the
status is 200 and the lowercased `Content-Type` contains `text/html` or
`text/plain`.  Totality of this function is the source's `try/except`:
no exception reaches the caller. -/
def ctAccepts (ct : Str) : Bool :=
  hasSub (str "text/html") (lowerStr ct) || hasSub (str "text/plain") (lowerStr ct)

def fetch_page (env : CrawlEnv) (url : Str) : Option HtmlDoc × Nat :=
  match env.http url with
  | none => (none, 0)
  | some r =>
    if r.status == 200 && ctAccepts r.contentType then (some r.doc, r.status)
    else (none, r.status)

/-- The transient state of one domain crawl: the visited set, the URLs
passed to `fetch_page` in order (instrumentation for the no-double-fetch
invariant), the `emails_found` map (keyed by normalized email, insertion
order), the BFS queue of `(depth, url)`, and the database. -/
structure CrawlState where
  visited : List Str
  fetched : List Str
  emailsMap : List (Str × Str × Str × Nat)
  queue : List (Nat × Str)
  db : Db

/-- Lines 403–406 of `process_url`: record a raw email under its
normalized form when newly seen (and truthy). -/
def recordEmail (url : Str) (page_id : Nat) (s : CrawlState) (raw : Str) : CrawlState :=
  match normalize_email raw with
  | some n =>
    if n ≠ [] && !(s.emailsMap.map (·.1)).contains n then
      { s with emailsMap := s.emailsMap ++ [(n, raw, url, page_id)] }
    else s
  | none => s

/-- Lines 420–422 of `process_url`: append one link at `depth + 1` unless
it is already visited. -/
def enqueueLink (depth : Nat) (s : CrawlState) (link : Str) : CrawlState :=
  if !s.visited.contains link then { s with queue := s.queue ++ [(depth + 1, link)] }
  else s

/-- `process_url` (core.py lines 371–422), one URL of a crawl: skip when
too deep or visited; add to `visited` before fetching; insert the Page row
(its failure is absorbed, leaving `page_id` unset); stop unless a body and
a page id exist; record newly-seen normalized emails; below `max_depth`,
partition the extracted links into priority and other links and append
them, priority first, to the queue, skipping visited ones. -/
def process_url (env : CrawlEnv) (maxDepth : Nat) (baseDomain : Str)
    (st : CrawlState) (depth : Nat) (url : Str) : CrawlState :=
  if depth > maxDepth || st.visited.contains url then st
  else
    let st := { st with visited := st.visited ++ [url], fetched := st.fetched ++ [url] }
    let (html, status_code) := fetch_page env url
    let pageIns :=
      if env.pageInsertOk url then
        let row : PageRow :=
          { url := url.take 1000
            status_code := status_code
            content_type := if html.isSome then some (str "text/html") else none
            error_message := if html.isSome then none else some (str "Failed to fetch") }
        some ({ st with db := { st.db with pages := st.db.pages ++ [row] } },
              st.db.pages.length + 1)
      else none
    match pageIns with
    | none => st
    | some (st, page_id) =>
      match html with
      | none => st
      | some doc =>
        let st := (extract_emails_from_html doc).foldl (recordEmail url page_id) st
        if depth < maxDepth then
          let links := extract_links doc url baseDomain
          let priority_links :=
            links.filter (fun l => EMAIL_PATHS.any (fun p => hasSub p (lowerStr l)))
          let other_links := links.filter (fun l => !priority_links.contains l)
          (priority_links ++ other_links).foldl (enqueueLink depth) st
        else st

/-- `asyncio.gather` over the created tasks: run them in creation order. -/
def runTasks (env : CrawlEnv) (maxDepth : Nat) (baseDomain : Str)
    (tasks : List (Nat × Str)) (st : CrawlState) : CrawlState :=
  tasks.foldl (fun s t => process_url env maxDepth baseDomain s t.1 t.2) st

/-- The batching loop of `crawl_domain` (core.py lines 437–454), exactly as
written: while the queue is nonempty, pop up to 50 entries into the pending
task list; only when 50 or more tasks have accumulated are they awaited
(run); after the loop exits, await whatever tasks remain.  Because created
tasks do not run before an `await`, the loop re-checks the queue *before*
the pending tasks have had a chance to refill it. -/
def crawlLoop (env : CrawlEnv) (maxDepth : Nat) (baseDomain : Str) :
    Nat → List (Nat × Str) → CrawlState → CrawlState
  | fuel, tasks, st =>
    if st.queue = [] then
      if tasks = [] then st else runTasks env maxDepth baseDomain tasks st
    else
      match fuel with
      | 0 => if tasks = [] then st else runTasks env maxDepth baseDomain tasks st
      | n + 1 =>
        let k := min 50 st.queue.length
        let batch := st.queue.take k
        let st := { st with queue := st.queue.drop k }
        let tasks := tasks ++ batch
        if tasks.length ≥ 50 then
          crawlLoop env maxDepth baseDomain n [] (runTasks env maxDepth baseDomain tasks st)
        else
          crawlLoop env maxDepth baseDomain n tasks st

/-- The crawl state after the BFS phase of `crawl_domain env maxDepth url
wid db0` (queue seeded with `(0, url)`, Domain row already `crawling`). -/
def crawlStateOf (env : CrawlEnv) (maxDepth : Nat) (url : Str) (wid : Str)
    (db0 : Db) : CrawlState :=
  let db1 : Db :=
    { db0 with
      domainRow :=
        { db0.domainRow with
          status := DomStatus.crawling
          worker_id := some wid
          locked_at := some env.now } }
  crawlLoop env maxDepth (extract_domain url) env.fuel []
    { visited := [], fetched := [], emailsMap := [], queue := [(0, url)], db := db1 }

/-- The email flush (core.py lines 456–472): `INSERT IGNORE` of the
collected emails, keyed on the normalized email truncated to 255 chars; a
failing insert is absorbed by the inner `try`. -/
def flushEmails (env : CrawlEnv) (st : CrawlState) : Db :=
  if st.emailsMap = [] then st.db
  else if env.emailInsertOk then
    st.emailsMap.foldl
      (fun db e =>
        let n := e.1.take 255
        if (db.emails.map (·.normalized_email)).contains n then db
        else
          { db with
            emails := db.emails ++
              [{ page_id := e.2.2.2, raw_email := e.2.1.take 255, normalized_email := n }] })
      st.db
  else st.db

/-- The `try` block of `crawl_domain` (core.py lines 424–488): claim the
Domain row, run the BFS loop, flush emails, mark completed.  An error
carries the message and the database state at the raise point.  Inside the
block only the claim UPDATE and the completion UPDATE can raise: `gather`
is called with `return_exceptions=True` and the page/email inserts and the
fetch have their own absorbing handlers. -/
def crawlDomainTry (env : CrawlEnv) (maxDepth : Nat) (url : Str) (wid : Str)
    (db0 : Db) : Except (Str × Db) Db :=
  if !env.claimOk then .error (env.claimErrMsg, db0)
  else
    let st := crawlStateOf env maxDepth url wid db0
    let db2 := flushEmails env st
    if !env.completeOk then .error (env.completeErrMsg, db2)
    else
      .ok { db2 with
            domainRow :=
              { db2.domainRow with
                status := DomStatus.completed
                pages_crawled := st.visited.length
                emails_found := st.emailsMap.length
                worker_id := none
                locked_at := none } }

/-- `EmailExtractor.crawl_domain` (core.py lines 355–502).  The outer
`except` turns any raise into the `failed` transition (error message
truncated to 500 chars, lock fields cleared); if even that UPDATE fails,
the database is left as it was.  The return type (`Db`, not an
exception monad) is the source's guarantee that nothing is re-raised. -/
def crawl_domain (env : CrawlEnv) (maxDepth : Nat) (url : Str) (wid : Str)
    (db0 : Db) : Db :=
  match crawlDomainTry env maxDepth url wid db0 with
  | .ok db => db
  | .error (msg, db) =>
    if env.failUpdateOk then
      { db with
        domainRow :=
          { db.domainRow with
            status := DomStatus.failed
            error_message := some (msg.take 500)
            worker_id := none
            locked_at := none } }
    else db

/-! ## Search creation (api.py lines 42–63 and 185–232) -/

/-- `SearchCreate.validate_domains` (api.py lines 57–63): reject an empty
list and one longer than 10000; otherwise trim every entry and drop the
ones that are blank after trimming.  Errors carry the message text. -/
def validate_domains (v : List Str) : Except Str (List Str) :=
  if v = [] then .error (str "At least one domain is required")
  else if v.length > 10000 then .error (str "Maximum 10000 domains per batch")
  else .ok ((v.map stripWs).filter (fun d => d ≠ []))

structure SearchRow where
  total_domains : Nat
  status : Str
  deriving DecidableEq

structure DomainInsert where
  domain : Str
  url : Str
  status : Str
  deriving DecidableEq

structure CreateResult where
  search : SearchRow
  domainRows : List DomainInsert
  deriving DecidableEq

/-- The insert phase of `create_search` (api.py lines 193–212), applied to
the validated domain list: the Search row records `len(domains)` and one
Domain row per entry with `url = "https://" + domain`, all `pending`. -/
def create_search (domains : List Str) : CreateResult :=
  { search := { total_domains := domains.length, status := str "pending" }
    domainRows :=
      domains.map (fun d =>
        { domain := d, url := str "https://" ++ d, status := str "pending" }) }

/-! ## Concrete scenario data -/

/-- The start URL of the §8 scenario-4 site. -/
def rootUrl : Str := str "https://a.test"

def contactUrl : Str := str "https://a.test/contact"

def blogUrl : Str := str "https://a.test/blog/2024"

/-- A page with no links and no text. -/
def emptyDoc : HtmlDoc := ⟨[], []⟩

/-- The scenario homepage: links to `/contact` and `/blog/2024`. -/
def rootDoc : HtmlDoc := ⟨[(Tag.a, contactUrl), (Tag.a, blogUrl)], []⟩

/-- The scenario environment: all three pages fetch successfully as
`text/html`, every database statement succeeds. -/
def scenarioEnv : CrawlEnv :=
  { http := fun u =>
      if u = rootUrl then some ⟨200, str "text/html", rootDoc⟩
      else if u = contactUrl || u = blogUrl then some ⟨200, str "text/html", emptyDoc⟩
      else none
    pageInsertOk := fun _ => true
    emailInsertOk := true
    claimOk := true
    claimErrMsg := []
    completeOk := true
    completeErrMsg := []
    failUpdateOk := true
    now := 7
    fuel := 1000 }

/-- A fresh pending Domain row with empty pages and emails tables. -/
def emptyDb : Db :=
  { domainRow := { status := DomStatus.pending, pages_crawled := 0,
                   emails_found := 0, error_message := none,
                   worker_id := none, locked_at := none }
    pages := [], emails := [] }

/-- An environment with no special behavior whose claim UPDATE fails. -/
def envClaimFail : CrawlEnv :=
  { http := fun _ => none
    pageInsertOk := fun _ => true
    emailInsertOk := true
    claimOk := false
    claimErrMsg := str "deadlock found when trying to get lock"
    completeOk := true
    completeErrMsg := []
    failUpdateOk := true
    now := 3
    fuel := 100 }

/-- An environment whose every fetch is a transport error. -/
def envTransportErr : CrawlEnv :=
  { http := fun _ => none
    pageInsertOk := fun _ => true
    emailInsertOk := true
    claimOk := true
    claimErrMsg := []
    completeOk := true
    completeErrMsg := []
    failUpdateOk := true
    now := 0
    fuel := 100 }

/-! ## Claim theorems -/

/-- C1 (code_bug): on the scenario site — root linking to `/contact` and
`/blog/2024`, `max_depth = 1`, all fetches succeeding — `crawl_domain`
does enqueue both links with the priority link first, but the `while
queue` loop has already exited when the root's task finally runs at the
trailing `gather`, so the enqueued links are never dequeued: only the
start URL is ever fetched and the crawl completes with `pages_crawled = 1`,
not 3 as the spec's scenario requires. -/
theorem c1_crawl_fetches_only_start_url :
    (crawlStateOf scenarioEnv 1 rootUrl (str "w1") emptyDb).queue =
      [(1, contactUrl), (1, blogUrl)] ∧
    (crawlStateOf scenarioEnv 1 rootUrl (str "w1") emptyDb).fetched = [rootUrl] ∧
    (crawl_domain scenarioEnv 1 rootUrl (str "w1") emptyDb).domainRow.pages_crawled = 1 ∧
    (crawl_domain scenarioEnv 1 rootUrl (str "w1") emptyDb).domainRow.status =
      DomStatus.completed := by
  refine ⟨by decide, by decide, by decide, by decide⟩

/-- C3 counterexample: `normalize_url` removes *every* occurrence of
`www.` from the host, not only a leading one; it strips *all* trailing
slashes; it also discards a `;parameters` path suffix; and on a parse
failure it returns the scheme-prepended string, not the original input. -/
theorem c3_counterexample :
    normalize_url (str "https://sub.www.example.com/x") = str "https://sub.example.com/x" ∧
    normalize_url (str "https://sub.www.example.com/x") ≠ str "https://sub.www.example.com/x" ∧
    normalize_url (str "[") = str "https://[" ∧
    normalize_url (str "[") ≠ str "[" ∧
    normalize_url (str "https://h/a//") = str "https://h/a" ∧
    normalize_url (str "https://h/a;b") = str "https://h/a" := by
  refine ⟨by decide, by decide, by decide, by decide, by decide, by decide⟩

/-- C4 counterexample: canonicalization is not idempotent.  Deleting the
occurrences of `www.` from the host `wwwww.w.x` yields `www.x`, which
contains a fresh `www.`, so a second canonicalization changes the URL
again. -/
theorem c4_counterexample :
    normalize_url (str "https://wwwww.w.x/") = str "https://www.x/" ∧
    normalize_url (normalize_url (str "https://wwwww.w.x/")) ≠
      normalize_url (str "https://wwwww.w.x/") := by
  refine ⟨by decide, by decide⟩

/-- C2 counterexample: `extract_links` admits `https://WWW.a.test/x/`
unchanged (uppercase host, `www.` and trailing slash intact), which is not
a fixed point of `normalize_url` — the returned links are not in §4.1
canonical form. -/
theorem c2_counterexample :
    extract_links ⟨[(Tag.a, str "https://WWW.a.test/x/")], []⟩ rootUrl (str "a.test") =
      [str "https://WWW.a.test/x/"] ∧
    normalize_url (str "https://WWW.a.test/x/") ≠ str "https://WWW.a.test/x/" := by
  refine ⟨by decide, by decide⟩

/-- C5: the `fetch_page` contract.  A transport error yields `(absent, 0)`;
otherwise the status code is passed through and the body is present exactly
when the status is 200 and the `Content-Type` contains `text/html` or
`text/plain`.  The function is total: the source's `try/except` means no
exception reaches the caller. -/
theorem c5_fetch_page_contract (env : CrawlEnv) (url : Str) :
    (env.http url = none → fetch_page env url = (none, 0)) ∧
    ((fetch_page env url).1.isSome ↔
      ∃ r, env.http url = some r ∧ r.status = 200 ∧ ctAccepts r.contentType = true) ∧
    (∀ r, env.http url = some r → (fetch_page env url).2 = r.status) := by
  refine ⟨fun h => by simp [fetch_page, h], ?_, fun r h => ?_⟩
  · cases h : env.http url with
    | none => simp [fetch_page, h]
    | some r =>
      by_cases hc : (r.status == 200 && ctAccepts r.contentType) = true
      · have hc' := hc
        simp only [Bool.and_eq_true, beq_iff_eq] at hc'
        simp [fetch_page, h, hc, hc'.1, hc'.2]
      · have hcf : (r.status == 200 && ctAccepts r.contentType) = false := by
          simpa using hc
        simp only [Bool.and_eq_true, beq_iff_eq, not_and] at hc
        simp only [fetch_page, h, hcf, if_false, Bool.false_eq_true]
        constructor
        · intro hs; simp at hs
        · rintro ⟨r', hr', h200, hct⟩
          injection hr' with he
          subst he
          exact absurd hct (hc h200)
  · by_cases hc : r.status == 200 && ctAccepts r.contentType <;>
      simp [fetch_page, h, hc]

/-- C5 witness: a transport error concretely yields `(absent, 0)`. -/
theorem c5_fetch_page_contract_witness :
    fetch_page envTransportErr (str "https://x.test") = (none, 0) :=
  (c5_fetch_page_contract envTransportErr (str "https://x.test")).1 rfl

/-- C6: the two obfuscated-text scenarios.  The de-obfuscation rewrites,
the email regex and `normalize_email` turn `contact: bob [at] sample [dot]
org` into exactly `bob@sample.org`, and `Reach us at Carol @ foo . io
please` into exactly `carol@foo.io`. -/
theorem c6_obfuscated_emails :
    (extract_emails_from_html ⟨[], str "contact: bob [at] sample [dot] org"⟩).filterMap
        normalize_email = [str "bob@sample.org"] ∧
    (extract_emails_from_html ⟨[], str "Reach us at Carol @ foo . io please"⟩).filterMap
        normalize_email = [str "carol@foo.io"] := by
  refine ⟨by decide, by decide⟩

/-- C7: any error raised inside the `try` block of `crawl_domain` (the
claim UPDATE or the completion UPDATE — everything else inside the block
is absorbed locally) transitions the Domain row to `failed` with the error
message truncated to at most 500 characters and the lock fields cleared,
and nothing is re-raised (`crawl_domain` is total with result type `Db`);
the handler's own UPDATE is assumed to succeed. -/
theorem c7_crawl_failure_sets_failed (env : CrawlEnv) (maxDepth : Nat)
    (url wid : Str) (db0 : Db) (msg : Str) (db1 : Db)
    (herr : crawlDomainTry env maxDepth url wid db0 = .error (msg, db1))
    (hupd : env.failUpdateOk = true) :
    crawl_domain env maxDepth url wid db0 =
      { db1 with
        domainRow :=
          { db1.domainRow with
            status := DomStatus.failed
            error_message := some (msg.take 500)
            worker_id := none
            locked_at := none } } ∧
    (msg.take 500).length ≤ 500 := by
  constructor
  · simp [crawl_domain, herr, hupd]
  · simp [List.length_take]

/-- C7 witness: with a failing claim UPDATE the Domain row ends `failed`
with the error message stored and the lock fields cleared. -/
theorem c7_crawl_failure_sets_failed_witness :
    crawl_domain envClaimFail 3 rootUrl (str "w1") emptyDb =
      { emptyDb with
        domainRow :=
          { emptyDb.domainRow with
            status := DomStatus.failed
            error_message := some ((str "deadlock found when trying to get lock").take 500)
            worker_id := none
            locked_at := none } } ∧
    ((str "deadlock found when trying to get lock").take 500).length ≤ 500 :=
  c7_crawl_failure_sets_failed envClaimFail 3 rootUrl (str "w1") emptyDb
    (str "deadlock found when trying to get lock") emptyDb rfl rfl

/-- C9: a validated domain list is the submitted list trimmed with blank
entries dropped (duplicates kept), and `create_search` records
`total_domains` equal to its length and inserts exactly that many Domain
rows. -/
theorem c9_create_search_counts (v ds : List Str)
    (h : validate_domains v = .ok ds) :
    ds = (v.map stripWs).filter (fun d => d ≠ []) ∧
    (create_search ds).search.total_domains =
      ((v.map stripWs).filter (fun d => d ≠ [])).length ∧
    (create_search ds).domainRows.length = (create_search ds).search.total_domains := by
  have hds : ds = (v.map stripWs).filter (fun d => d ≠ []) := by
    unfold validate_domains at h
    split_ifs at h
    cases h
    rfl
  refine ⟨hds, ?_, ?_⟩
  · rw [hds]; rfl
  · simp [create_search]

/-- C9 witness: `[" a.com ", "", "a.com"]` validates to two rows (the
duplicate kept) and `total_domains = 2`. -/
theorem c9_create_search_counts_witness :
    [str "a.com", str "a.com"] =
      (([str " a.com ", str "", str "a.com"].map stripWs).filter (fun d => d ≠ [])) ∧
    (create_search [str "a.com", str "a.com"]).search.total_domains =
      (([str " a.com ", str "", str "a.com"].map stripWs).filter (fun d => d ≠ [])).length ∧
    (create_search [str "a.com", str "a.com"]).domainRows.length =
      (create_search [str "a.com", str "a.com"]).search.total_domains :=
  c9_create_search_counts [str " a.com ", str "", str "a.com"]
    [str "a.com", str "a.com"] rfl

/-- C10: `normalize_url` returns a falsy (empty) input unchanged — no
scheme is prepended and no parsing is attempted. -/
theorem c10_normalize_url_empty : normalize_url [] = [] := rfl

/-! ## Lemmas: characters and lowercasing -/

theorem toNat_ofNat_valid {n : Nat} (h : n.isValidChar) : (Char.ofNat n).toNat = n := by
  unfold Char.ofNat
  rw [dif_pos h]
  rfl

theorem char_toNat_inj {c d : Char} (h : c.toNat = d.toNat) : c = d :=
  Char.eq_of_val_eq (UInt32.toNat.inj h)

/-- `lowerC` either fixes its argument or maps an uppercase letter to the
corresponding lowercase letter. -/
theorem lowerC_spec (c : Char) :
    lowerC c = c ∨
    (65 ≤ c.toNat ∧ c.toNat ≤ 90 ∧ (lowerC c).toNat = c.toNat + 32) := by
  unfold lowerC
  by_cases h : isUpperA c = true
  · right
    simp only [h, if_true]
    simp only [isUpperA, Bool.and_eq_true, decide_eq_true_eq, Char.le_def] at h
    have h1 : 65 ≤ c.toNat := h.1
    have h2 : c.toNat ≤ 90 := h.2
    have hv : (c.toNat + 32).isValidChar := Or.inl (by omega)
    rw [toNat_ofNat_valid hv]
    omega
  · left; simp [h]

theorem isUpperA_iff {c : Char} : isUpperA c = true ↔ 65 ≤ c.toNat ∧ c.toNat ≤ 90 := by
  simp only [isUpperA, Bool.and_eq_true, decide_eq_true_eq, Char.le_def]
  constructor
  · exact fun h => ⟨h.1, h.2⟩
  · exact fun h => ⟨h.1, h.2⟩

theorem lowerC_of_not_upper {c : Char} (h : isUpperA c = false) : lowerC c = c := by
  simp [lowerC, h]

theorem lowerC_idem (c : Char) : lowerC (lowerC c) = lowerC c := by
  rcases lowerC_spec c with h | ⟨h1, h2, h3⟩
  · rw [h, h]
  · refine lowerC_of_not_upper ?_
    rw [Bool.eq_false_iff]
    intro hu
    rw [isUpperA_iff] at hu
    omega

theorem mem_lowerStr {c : Char} {s : Str} (h : c ∈ lowerStr s) :
    c ∈ s ∨ (97 ≤ c.toNat ∧ c.toNat ≤ 122) := by
  obtain ⟨d, hd, hdc⟩ := List.mem_map.mp h
  rcases lowerC_spec d with h' | ⟨h1, h2, h3⟩
  · left; rw [← hdc, h']; exact hd
  · right; rw [← hdc]; omega

theorem mem_lowerStr_of_mem {c : Char} {s : Str}
    (hnu : isUpperA c = false) (h : c ∈ s) : c ∈ lowerStr s := by
  refine List.mem_map.mpr ⟨c, h, ?_⟩
  unfold lowerC
  simp [hnu]

theorem lowerStr_fix {s : Str} (h : ∀ c ∈ s, lowerC c = c) : lowerStr s = s := by
  induction s with
  | nil => rfl
  | cons c cs ih =>
    simp only [lowerStr, List.map_cons]
    rw [h c (List.mem_cons_self c cs)]
    have := ih (fun d hd => h d (List.mem_cons_of_mem c hd))
    simp only [lowerStr] at this
    rw [this]

theorem lowerC_fix_of_mem_lowerStr {c : Char} {s : Str} (h : c ∈ lowerStr s) :
    lowerC c = c := by
  obtain ⟨d, _, hdc⟩ := List.mem_map.mp h
  rw [← hdc]
  exact lowerC_idem d

/-! ## Lemmas: `leadEq` and `replaceAll` -/

theorem leadEq_iff {pat s : Str} : leadEq pat s = true ↔ ∃ t, s = pat ++ t := by
  induction pat generalizing s with
  | nil => simp [leadEq]
  | cons p ps ih =>
    cases s with
    | nil =>
      simp only [leadEq, List.cons_append]
      constructor
      · intro h; cases h
      · rintro ⟨t, ht⟩; cases ht
    | cons c cs =>
      simp only [leadEq, Bool.and_eq_true, beq_iff_eq, ih, List.cons_append]
      constructor
      · rintro ⟨rfl, t, rfl⟩; exact ⟨t, rfl⟩
      · rintro ⟨t, ht⟩
        injection ht with h1 h2
        exact ⟨h1.symm, t, h2⟩

theorem leadEq_append_self (pat t : Str) : leadEq pat (pat ++ t) = true :=
  leadEq_iff.mpr ⟨t, rfl⟩

theorem leadEq_false_iff {pat s : Str} : leadEq pat s = false ↔ ¬ ∃ t, s = pat ++ t := by
  rw [← leadEq_iff, Bool.not_eq_true]

/-- A string without an occurrence of the pattern is left unchanged. -/
theorem replAux_of_no_sub {p : Char} {ps rep : Str} :
    ∀ {n : Nat} {s : Str}, hasSub (p :: ps) s = false → replAux p ps rep n s = s
  | 0, _, _ => rfl
  | _ + 1, [], _ => rfl
  | n + 1, c :: cs, h => by
    simp only [hasSub, Bool.or_eq_false_iff] at h
    obtain ⟨h1, h2⟩ := h
    have hcond : (p == c && leadEq ps cs) = false := by
      simp only [leadEq] at h1
      exact h1
    unfold replAux
    rw [hcond]
    simp only [Bool.false_eq_true, if_false]
    rw [replAux_of_no_sub h2]

theorem replaceAll_of_no_sub {pat rep s : Str} (h : hasSub pat s = false) :
    replaceAll pat rep s = s := by
  cases pat with
  | nil => rfl
  | cons p ps => exact replAux_of_no_sub h

/-- Characters of the output of a deleting `replace` come from the input. -/
theorem mem_replAux {p : Char} {ps : Str} :
    ∀ {n : Nat} {s : Str} {c : Char}, c ∈ replAux p ps [] n s → c ∈ s
  | 0, _, _, h => h
  | _ + 1, [], _, h => by cases h
  | n + 1, d :: cs, c, h => by
    unfold replAux at h
    by_cases hc : (p == d && leadEq ps cs) = true
    · rw [if_pos hc] at h
      simp only [List.nil_append] at h
      have := mem_replAux (n := n) h
      exact List.mem_cons_of_mem d (List.mem_of_mem_drop this)
    · rw [if_neg hc] at h
      rcases List.mem_cons.mp h with rfl | h'
      · exact List.mem_cons_self c cs
      · exact List.mem_cons_of_mem d (mem_replAux h')

/-- A character not occurring in the (deleting) pattern survives `replace`. -/
theorem mem_replAux_of_mem {p : Char} {ps : Str} {c : Char}
    (hcp : c ≠ p) (hcps : c ∉ ps) :
    ∀ {n : Nat} {s : Str}, c ∈ s → c ∈ replAux p ps [] n s
  | 0, _, h => h
  | _ + 1, [], h => by cases h
  | n + 1, d :: cs, h => by
    unfold replAux
    by_cases hc : (p == d && leadEq ps cs) = true
    · rw [if_pos hc]
      simp only [List.nil_append]
      simp only [Bool.and_eq_true, beq_iff_eq] at hc
      obtain ⟨rfl, hlead⟩ := hc
      obtain ⟨t, rfl⟩ := leadEq_iff.mp hlead
      rcases List.mem_cons.mp h with rfl | h'
      · exact absurd rfl hcp
      · rcases List.mem_append.mp h' with h'' | h''
        · exact absurd h'' hcps
        · have : c ∈ (ps ++ t).drop ps.length := by
            rw [List.drop_append_of_le_length (Nat.le_refl _)]
            simpa using h''
          exact mem_replAux_of_mem hcp hcps this
    · rw [if_neg hc]
      rcases List.mem_cons.mp h with rfl | h'
      · exact List.mem_cons_self _ _
      · exact List.mem_cons_of_mem d (mem_replAux_of_mem hcp hcps h')

theorem replaceAll_www_eq (s : Str) :
    replaceAll (str "www.") [] s = replAux 'w' (str "ww.") [] s.length s := rfl

theorem mem_replaceAll_www {c : Char} {s : Str}
    (hw : c ≠ 'w') (hd : c ≠ '.') :
    c ∈ replaceAll (str "www.") [] s ↔ c ∈ s := by
  rw [replaceAll_www_eq]
  constructor
  · exact fun h => mem_replAux h
  · intro h
    refine mem_replAux_of_mem hw ?_ h
    intro hc
    have hcases : c = 'w' ∨ c = 'w' ∨ c = '.' := by
      have hws : str "ww." = ['w', 'w', '.'] := rfl
      rw [hws] at hc
      simpa using hc
    rcases hcases with rfl | rfl | rfl
    · exact hw rfl
    · exact hw rfl
    · exact hd rfl

/-! ## Lemmas: parsing strings of the form `http(s)://…` -/

theorem splitScheme_http (t : Str) :
    splitScheme (str "http" ++ ':' :: t) [] = (str "http", t) := rfl

theorem splitScheme_https (t : Str) :
    splitScheme (str "https" ++ ':' :: t) [] = (str "https", t) := rfl

theorem urlsplitM_scheme (sch t : Str) (hs : sch = str "http" ∨ sch = str "https") :
    urlsplitM (sch ++ ':' :: t) [] = urlsplitAfterScheme sch t := by
  rcases hs with rfl | rfl
  · unfold urlsplitM
    rw [splitScheme_http]
  · unfold urlsplitM
    rw [splitScheme_https]

theorem urlsplitAfterScheme_slash (sch t : Str) :
    urlsplitAfterScheme sch ('/' :: '/' :: t) =
      if badBrackets (t.takeWhile netlocChar) then .error ()
      else
        .ok (sch, t.takeWhile netlocChar,
             (splitAtFirst '?' (splitAtFirst '#' (t.dropWhile netlocChar)).1).1,
             (splitAtFirst '?' (splitAtFirst '#' (t.dropWhile netlocChar)).1).2,
             (splitAtFirst '#' (t.dropWhile netlocChar)).2) := rfl

/-- A path is empty or starts with a slash. -/
def slashHeaded (s : Str) : Prop := s = [] ∨ ∃ t, s = '/' :: t

theorem netlocChar_false_iff {c : Char} :
    netlocChar c = false ↔ c = '/' ∨ c = '?' ∨ c = '#' := by
  simp only [netlocChar, Bool.not_eq_false', Bool.or_eq_true, beq_iff_eq]
  tauto

theorem splitAtFirst_nil (c : Char) : splitAtFirst c [] = ([], []) := rfl

theorem splitAtFirst_fst_cons_of_ne {a c : Char} (h : a ≠ c) (u : Str) :
    (splitAtFirst c (a :: u)).1 = a :: u.takeWhile (fun x => x ≠ c) := by
  simp [splitAtFirst, List.takeWhile_cons, h]

theorem splitAtFirst_fst_cons_self (c : Char) (u : Str) :
    (splitAtFirst c (c :: u)).1 = [] := by
  simp [splitAtFirst, List.takeWhile_cons]

theorem mem_splitAtFirst_fst {a c : Char} {s : Str}
    (h : a ∈ (splitAtFirst c s).1) : a ∈ s ∧ a ≠ c := by
  refine ⟨List.takeWhile_subset _ h, ?_⟩
  have := List.mem_takeWhile_imp h
  simpa using this

/-- The path produced by the `#`/`?` splits of `urlsplit` after a netloc. -/
theorem path0_slashHeaded (t : Str) :
    slashHeaded (splitAtFirst '?' (splitAtFirst '#' (t.dropWhile netlocChar)).1).1 := by
  cases hd : t.dropWhile netlocChar with
  | nil =>
    rw [splitAtFirst_nil, splitAtFirst_nil]
    exact Or.inl rfl
  | cons c u =>
    have hc : netlocChar c = false := by
      have := List.head?_dropWhile_not netlocChar t
      rw [hd] at this
      simpa using this
    rcases netlocChar_false_iff.mp hc with rfl | rfl | rfl
    · rw [splitAtFirst_fst_cons_of_ne (by decide) u,
        splitAtFirst_fst_cons_of_ne (by decide)]
      exact Or.inr ⟨_, rfl⟩
    · rw [splitAtFirst_fst_cons_of_ne (by decide) u, splitAtFirst_fst_cons_self]
      exact Or.inl rfl
    · rw [splitAtFirst_fst_cons_self]
      rw [splitAtFirst_nil]
      exact Or.inl rfl

theorem mem_path0 {a : Char} {t : Str}
    (h : a ∈ (splitAtFirst '?' (splitAtFirst '#' (t.dropWhile netlocChar)).1).1) :
    a ≠ '?' ∧ a ≠ '#' := by
  obtain ⟨h1, hq⟩ := mem_splitAtFirst_fst h
  obtain ⟨_, hh⟩ := mem_splitAtFirst_fst h1
  exact ⟨hq, hh⟩

/-- Decomposition used by `_splitparams`: the string splits as the part up
to and including the last `/` plus a slash-free last segment. -/
theorem splitLastSeg (p : Str) :
    p = ((p.reverse.dropWhile (· ≠ '/')).reverse) ++
        ((p.reverse.takeWhile (· ≠ '/')).reverse) := by
  rw [← List.reverse_append, List.takeWhile_append_dropWhile, List.reverse_reverse]

theorem splitparamsPy_fst_subset (p : Str) : (splitparamsPy p).1 ⊆ p := by
  unfold splitparamsPy
  by_cases h1 : p.contains '/' = true
  · rw [if_pos h1]
    by_cases h2 : ((p.reverse.takeWhile (· ≠ '/')).reverse).contains ';' = true
    · rw [if_pos h2]
      intro a ha
      rcases List.mem_append.mp ha with ha | ha
      · rw [splitLastSeg p]
        exact List.mem_append.mpr (Or.inl ha)
      · rw [splitLastSeg p]
        exact List.mem_append.mpr (Or.inr (List.takeWhile_subset _ ha))
    · rw [if_neg h2]
      exact fun a ha => ha
  · rw [if_neg h1]
    exact fun a ha => List.takeWhile_subset _ ha

theorem splitparamsPy_slashHeaded {p : Str} (h : slashHeaded p) :
    slashHeaded (splitparamsPy p).1 := by
  rcases h with rfl | ⟨t, rfl⟩
  · unfold splitparamsPy
    simp only [List.contains, List.elem_nil, Bool.false_eq_true, if_false]
    left
    rfl
  · unfold splitparamsPy
    have h1 : ('/' :: t).contains '/' = true := by simp
    rw [if_pos h1]
    by_cases h2 : ((('/' :: t).reverse.takeWhile (· ≠ '/')).reverse).contains ';' = true
    · rw [if_pos h2]
      have hpre : ((('/' :: t).reverse.dropWhile (· ≠ '/')).reverse) ≠ [] := by
        intro hnil
        have h0 : ('/' :: t).reverse.dropWhile (· ≠ '/') = [] := by
          have := congrArg List.reverse hnil
          simpa using this
        rw [List.dropWhile_eq_nil_iff] at h0
        have hm : '/' ∈ ('/' :: t).reverse := by simp
        have := h0 '/' hm
        simp at this
      cases hpe : (('/' :: t).reverse.dropWhile (· ≠ '/')).reverse with
      | nil => exact absurd hpe hpre
      | cons c pre' =>
        have hdecomp := splitLastSeg ('/' :: t)
        rw [hpe] at hdecomp
        have hc : c = '/' := by
          rw [List.cons_append] at hdecomp
          injection hdecomp with h1' _
          exact h1'.symm
        subst hc
        exact Or.inr ⟨_, rfl⟩
    · rw [if_neg h2]
      exact Or.inr ⟨t, rfl⟩

theorem splitparamsPy_nil : splitparamsPy [] = ([], []) := rfl

/-- Inversion of a successful `urlparse` of `sch://t` for `sch` one of
`http`, `https`: the scheme is passed through, the netloc is the prefix of
netloc characters, its brackets are balanced, and the path starts with `/`
(or is empty) and contains no `?` or `#`. -/
theorem urlparseM_canon_inv {sch t : Str} {p : UrlParts}
    (hs : sch = str "http" ∨ sch = str "https")
    (h : urlparseM (sch ++ ':' :: '/' :: '/' :: t) [] = .ok p) :
    p.scheme = sch ∧ p.netloc = t.takeWhile netlocChar ∧
    badBrackets (t.takeWhile netlocChar) = false ∧
    slashHeaded p.path ∧ (∀ a ∈ p.path, a ≠ '?' ∧ a ≠ '#') := by
  unfold urlparseM at h
  rw [urlsplitM_scheme sch ('/' :: '/' :: t) hs, urlsplitAfterScheme_slash] at h
  by_cases hb : badBrackets (t.takeWhile netlocChar) = true
  · rw [if_pos hb] at h
    cases h
  · rw [if_neg hb] at h
    rw [Bool.not_eq_true] at hb
    dsimp only at h
    by_cases hpar : (uses_params.contains sch &&
        (splitAtFirst '?' (splitAtFirst '#' (t.dropWhile netlocChar)).1).1.contains ';') = true
    · rw [if_pos hpar] at h
      injection h with h
      subst h
      refine ⟨rfl, rfl, hb, ?_, ?_⟩
      · exact splitparamsPy_slashHeaded (path0_slashHeaded t)
      · intro a ha
        exact mem_path0 (splitparamsPy_fst_subset _ ha)
    · rw [if_neg hpar] at h
      injection h with h
      subst h
      refine ⟨rfl, rfl, hb, path0_slashHeaded t, ?_⟩
      intro a ha
      exact mem_path0 ha

/-! ## Lemmas: `rstripChar` and `pathFix` -/

theorem rstripChar_decomp (c : Char) (s : Str) :
    s = rstripChar c s ++ (s.reverse.takeWhile (· == c)).reverse ∧
    ∀ a ∈ (s.reverse.takeWhile (· == c)).reverse, a = c := by
  constructor
  · rw [rstripChar, ← List.reverse_append, List.takeWhile_append_dropWhile,
      List.reverse_reverse]
  · intro a ha
    have := List.mem_takeWhile_imp (List.mem_reverse.mp ha)
    simpa using this

theorem mem_rstripChar {a c : Char} {s : Str} (h : a ∈ rstripChar c s) : a ∈ s := by
  have hd := (rstripChar_decomp c s).1
  rw [hd]
  exact List.mem_append.mpr (Or.inl h)

theorem dropWhile_idem (p : Char → Bool) (l : Str) :
    (l.dropWhile p).dropWhile p = l.dropWhile p := by
  cases hd : l.dropWhile p with
  | nil => rfl
  | cons c u =>
    have hc : p c = false := by
      have := List.head?_dropWhile_not p l
      rw [hd] at this
      simpa using this
    rw [List.dropWhile_cons_of_neg (by simp [hc])]

theorem rstripChar_idem (c : Char) (s : Str) :
    rstripChar c (rstripChar c s) = rstripChar c s := by
  unfold rstripChar
  rw [List.reverse_reverse, dropWhile_idem]

theorem pathFix_slash {q : Str} (h : slashHeaded q) : ∃ t, pathFix q = '/' :: t := by
  unfold pathFix
  by_cases hr : rstripChar '/' q = []
  · rw [if_pos hr]
    exact ⟨[], rfl⟩
  · rw [if_neg hr]
    rcases h with rfl | ⟨t, rfl⟩
    · exact absurd rfl hr
    · cases hs : rstripChar '/' ('/' :: t) with
      | nil => exact absurd hs hr
      | cons a u =>
        have hd := (rstripChar_decomp '/' ('/' :: t)).1
        rw [hs, List.cons_append] at hd
        injection hd with h1 _
        exact ⟨u, by rw [h1]⟩

theorem mem_pathFix {a : Char} {q : Str} (h : a ∈ pathFix q) : a ∈ q ∨ a = '/' := by
  unfold pathFix at h
  by_cases hr : rstripChar '/' q = []
  · rw [if_pos hr] at h
    right
    have : a ∈ ['/'] := h
    simpa using this
  · rw [if_neg hr] at h
    exact Or.inl (mem_rstripChar h)

theorem pathFix_idem (q : Str) : pathFix (pathFix q) = pathFix q := by
  unfold pathFix
  by_cases hr : rstripChar '/' q = []
  · rw [if_pos hr]
    have h1 : rstripChar '/' (str "/") = [] := rfl
    rw [if_pos h1]
  · rw [if_neg hr, rstripChar_idem, if_neg hr]

/-! ## Lemmas: `urlunsplit` on canonical components -/

theorem urlunsplitM_canon_cons (sch t : Str) (c : Char) (hs' : Str)
    (hsch : sch = str "http" ∨ sch = str "https") :
    urlunsplitM sch (c :: hs') ('/' :: t) [] [] =
      sch ++ ':' :: '/' :: '/' :: ((c :: hs') ++ '/' :: t) := by
  rcases hsch with rfl | rfl <;> rfl

theorem urlunsplitM_canon_nil (sch t : Str)
    (hsch : sch = str "http" ∨ sch = str "https") :
    urlunsplitM sch [] ('/' :: t) [] [] =
      sch ++ ':' :: '/' :: '/' :: '/' :: t := by
  unfold urlunsplitM
  dsimp only
  by_cases hl : leadEq (str "//") ('/' :: t) = true
  · rw [if_pos hl]
    rcases hsch with rfl | rfl <;> rfl
  · rw [if_neg hl]
    rcases hsch with rfl | rfl <;> rfl

theorem urlunparse_canon {sch host t : Str}
    (hsch : sch = str "http" ∨ sch = str "https") :
    urlunparseM ⟨sch, host, '/' :: t, [], [], []⟩ =
      sch ++ ':' :: '/' :: '/' :: (host ++ '/' :: t) := by
  have hpth : urlunparseM ⟨sch, host, '/' :: t, [], [], []⟩ =
      urlunsplitM sch host ('/' :: t) [] [] := by
    unfold urlunparseM
    dsimp only
    rw [if_neg (by simp)]
  rw [hpth]
  cases host with
  | nil =>
    rw [urlunsplitM_canon_nil _ _ hsch]
    rfl
  | cons c hs' =>
    rw [urlunsplitM_canon_cons _ _ _ _ hsch]

/-- The §4.1 canonical form as the amended C3 describes it, assembled
directly as a string: empty input unchanged; otherwise prepend the scheme
if missing, parse, and return `scheme://host'path'` where `host'` is the
lowercased host with *every* occurrence of `www.` deleted and `path'` is
the path with all trailing slashes stripped (`/` substituted when the path
empties); params, query and fragment are discarded.  The `//` marker is
always present: the parsed path is empty or slash-led and `http`/`https`
use a netloc, and when `host'` is empty `urlunsplit` re-emits the marker
in front of a path that itself starts with `//` (so `https:////x` comes
back unchanged rather than collapsing to `https://x`); on a parse failure
the scheme-prepended input is returned as is. -/
def canonSpec (raw : Str) : Str :=
  if raw = [] then raw
  else
    match urlparseM (withScheme raw) [] with
    | .error _ => withScheme raw
    | .ok p =>
      let host := replaceAll (str "www.") [] (lowerStr p.netloc)
      let path := pathFix p.path
      p.scheme ++ ':' :: '/' :: '/' :: (host ++ path)

theorem withScheme_canonical (raw : Str) :
    ∃ sch t, (sch = str "http" ∨ sch = str "https") ∧
      withScheme raw = sch ++ ':' :: '/' :: '/' :: t := by
  unfold withScheme
  by_cases hl : (leadEq (str "http://") raw || leadEq (str "https://") raw) = true
  · rw [if_pos hl]
    simp only [Bool.or_eq_true] at hl
    rcases hl with h | h
    · obtain ⟨t, ht⟩ := leadEq_iff.mp h
      exact ⟨str "http", t, Or.inl rfl, ht⟩
    · obtain ⟨t, ht⟩ := leadEq_iff.mp h
      exact ⟨str "https", t, Or.inr rfl, ht⟩
  · rw [if_neg hl]
    exact ⟨str "https", raw, Or.inr rfl, rfl⟩

/-- C3 (amended): `normalize_url` computes exactly the §4.1 description as
amended — host lowercased with every `www.` occurrence removed, all
trailing slashes stripped (`/` when emptied), params, query and fragment
discarded, the result assembled as `scheme://host'path'` with the `//`
marker always present (an empty-host path-initial `//` is preserved, so
`https:////x` round-trips), and the scheme-prepended input returned on
parse failure. -/
theorem c3_normalize_url_amended (raw : Str) : normalize_url raw = canonSpec raw := by
  unfold normalize_url canonSpec
  by_cases h0 : raw = []
  · rw [if_pos h0, if_pos h0]
  · rw [if_neg h0, if_neg h0]
    dsimp only
    obtain ⟨sch, t, hs, ht⟩ := withScheme_canonical raw
    cases hp : urlparseM (withScheme raw) [] with
    | error e => rfl
    | ok p =>
      rw [ht] at hp
      obtain ⟨hsch, _, _, hpath, _⟩ := urlparseM_canon_inv hs hp
      obtain ⟨t2, hpfix⟩ := pathFix_slash hpath
      dsimp only
      rw [hpfix, hsch]
      exact urlunparse_canon hs

/-! ## Lemmas for conditional idempotence of `normalize_url` -/

theorem splitAtFirst_of_all_ne {c : Char} {s : Str} (h : ∀ a ∈ s, a ≠ c) :
    splitAtFirst c s = (s, []) := by
  unfold splitAtFirst
  have h1 : s.takeWhile (fun x => x ≠ c) = s :=
    List.takeWhile_eq_self_iff.mpr (by intro x hx; simpa using h x hx)
  have h2 : s.dropWhile (fun x => x ≠ c) = [] :=
    List.dropWhile_eq_nil_iff.mpr (by intro x hx; simpa using h x hx)
  rw [h1, h2]
  rfl

theorem contains_false_of_all_ne {c : Char} {s : Str} (h : ∀ a ∈ s, a ≠ c) :
    s.contains c = false := by
  rw [Bool.eq_false_iff]
  intro hc
  have hm : c ∈ s := by simpa using hc
  exact h c hm rfl

theorem contains_eq_decide_mem (s : Str) (c : Char) :
    s.contains c = decide (c ∈ s) := by
  by_cases h : c ∈ s
  · simp [h]
  · simp [h]

theorem badBrackets_congr {a b : Str}
    (h1 : '[' ∈ a ↔ '[' ∈ b) (h2 : ']' ∈ a ↔ ']' ∈ b) :
    badBrackets a = badBrackets b := by
  unfold badBrackets
  rw [contains_eq_decide_mem a '[', contains_eq_decide_mem b '[',
    contains_eq_decide_mem a ']', contains_eq_decide_mem b ']',
    decide_eq_decide.mpr h1, decide_eq_decide.mpr h2]

theorem withScheme_of_canonical {sch : Str} (t : Str)
    (hs : sch = str "http" ∨ sch = str "https") :
    withScheme (sch ++ ':' :: '/' :: '/' :: t) = sch ++ ':' :: '/' :: '/' :: t := by
  unfold withScheme
  rcases hs with rfl | rfl
  · rw [if_pos]
    rw [Bool.or_eq_true]
    left
    exact leadEq_append_self (str "http://") t
  · rw [if_pos]
    rw [Bool.or_eq_true]
    right
    exact leadEq_append_self (str "https://") t

theorem netlocChar_of_lower {c : Char} (h : 97 ≤ c.toNat ∧ c.toNat ≤ 122) :
    netlocChar c = true := by
  unfold netlocChar
  have h1 : c ≠ '/' := by
    intro he; subst he; revert h; decide
  have h2 : c ≠ '?' := by
    intro he; subst he; revert h; decide
  have h3 : c ≠ '#' := by
    intro he; subst he; revert h; decide
  simp [h1, h2, h3]

/-- Parsing a canonical `sch://host/path` back: with a netloc-clean,
bracket-balanced host and a slash-led path free of `#?;`, `urlparse`
recovers exactly the components. -/
theorem urlparseM_canon_eval {sch host t2 : Str}
    (hs : sch = str "http" ∨ sch = str "https")
    (hhost : ∀ c ∈ host, netlocChar c = true)
    (hbr : badBrackets host = false)
    (hclean : ∀ a ∈ ('/' :: t2 : Str), a ≠ '#' ∧ a ≠ '?' ∧ a ≠ ';') :
    urlparseM (sch ++ ':' :: '/' :: '/' :: (host ++ '/' :: t2)) [] =
      .ok ⟨sch, host, '/' :: t2, [], [], []⟩ := by
  unfold urlparseM
  rw [urlsplitM_scheme sch _ hs, urlsplitAfterScheme_slash]
  have htake : (host ++ '/' :: t2).takeWhile netlocChar = host := by
    rw [List.takeWhile_append_of_pos hhost,
      List.takeWhile_cons_of_neg (by simp [netlocChar]), List.append_nil]
  have hdrop : (host ++ '/' :: t2).dropWhile netlocChar = '/' :: t2 := by
    rw [List.dropWhile_append_of_pos hhost,
      List.dropWhile_cons_of_neg (by simp [netlocChar])]
  rw [htake, hdrop, if_neg (by rw [hbr]; simp)]
  have hsf : splitAtFirst '#' ('/' :: t2) = ('/' :: t2, []) :=
    splitAtFirst_of_all_ne (fun a ha => (hclean a ha).1)
  rw [hsf]
  have hsq : splitAtFirst '?' ('/' :: t2) = ('/' :: t2, []) :=
    splitAtFirst_of_all_ne (fun a ha => (hclean a ha).2.1)
  rw [hsq]
  dsimp only
  rw [if_neg]
  intro hcond
  rw [Bool.and_eq_true] at hcond
  have := contains_false_of_all_ne (fun a ha => (hclean a ha).2.2)
  rw [this] at hcond
  exact absurd hcond.2 (by simp)

theorem mem_lowerStr_iff_special {c : Char} (h1 : isUpperA c = false)
    (h2 : ¬(97 ≤ c.toNat ∧ c.toNat ≤ 122)) (s : Str) :
    c ∈ lowerStr s ↔ c ∈ s :=
  ⟨fun h => (mem_lowerStr h).resolve_right h2, mem_lowerStr_of_mem h1⟩

/-- C4 (amended): canonicalization is idempotent on every input that is
empty, fails to parse, or whose canonicalized host is nonempty and free of
any remaining `www.` occurrence and whose parsed path carries no `;`
parameter separator.  (The unconditional claim is refuted by
`c4_counterexample`: deleting `www.` can create a fresh `www.`.) -/
theorem c4_idempotent_amended (u : Str)
    (h : u = [] ∨ (∃ e, urlparseM (withScheme u) [] = .error e) ∨
         (∃ p : UrlParts, urlparseM (withScheme u) [] = .ok p ∧
            replaceAll (str "www.") [] (lowerStr p.netloc) ≠ [] ∧
            hasSub (str "www.") (replaceAll (str "www.") [] (lowerStr p.netloc)) = false ∧
            ∀ a ∈ p.path, a ≠ ';')) :
    normalize_url (normalize_url u) = normalize_url u := by
  rcases h with rfl | ⟨e, hp⟩ | ⟨p, hp, hne, hww, hsemi⟩
  · rfl
  · by_cases h0 : u = []
    · subst h0; rfl
    · have hv : normalize_url u = withScheme u := by
        unfold normalize_url
        rw [if_neg h0]
        dsimp only
        rw [hp]
      rw [hv]
      obtain ⟨sch, t, hs, ht⟩ := withScheme_canonical u
      have hvne : withScheme u ≠ [] := by
        rw [ht]
        rcases hs with rfl | rfl <;> simp
      unfold normalize_url
      rw [if_neg hvne]
      dsimp only
      have hws : withScheme (withScheme u) = withScheme u := by
        calc withScheme (withScheme u)
            = withScheme (sch ++ ':' :: '/' :: '/' :: t) := by rw [ht]
          _ = sch ++ ':' :: '/' :: '/' :: t := withScheme_of_canonical t hs
          _ = withScheme u := ht.symm
      rw [hws, hp]
  · by_cases h0 : u = []
    · exfalso
      subst h0
      have hq : urlparseM (withScheme []) [] = .ok ⟨str "https", [], [], [], [], []⟩ := rfl
      rw [hq] at hp
      injection hp with hp
      rw [← hp] at hne
      exact hne rfl
    · obtain ⟨sch, t, hs, ht⟩ := withScheme_canonical u
      rw [ht] at hp
      obtain ⟨hsch, hnl, hbb, hshp, hqf⟩ := urlparseM_canon_inv hs hp
      obtain ⟨t2, hpfix⟩ := pathFix_slash hshp
      set host := replaceAll (str "www.") [] (lowerStr p.netloc) with hhostdef
      have hv : normalize_url u = sch ++ ':' :: '/' :: '/' :: (host ++ '/' :: t2) := by
        unfold normalize_url
        rw [if_neg h0]
        dsimp only
        rw [ht, hp]
        dsimp only
        rw [hpfix, hsch]
        rw [urlunparse_canon hs]
      rw [hv]
      have hhost_mem : ∀ c ∈ host, c ∈ lowerStr p.netloc := by
        intro c hc
        rw [hhostdef, replaceAll_www_eq] at hc
        exact mem_replAux hc
      have hhostchar : ∀ c ∈ host, netlocChar c = true := by
        intro c hc
        rcases mem_lowerStr (hhost_mem c hc) with hcm | hrange
        · rw [hnl] at hcm
          exact List.mem_takeWhile_imp hcm
        · exact netlocChar_of_lower hrange
      have hbf : '[' ∈ host ↔ '[' ∈ p.netloc := by
        rw [hhostdef]
        rw [mem_replaceAll_www (by decide) (by decide)]
        exact mem_lowerStr_iff_special (by decide) (by decide) _
      have hbf2 : ']' ∈ host ↔ ']' ∈ p.netloc := by
        rw [hhostdef]
        rw [mem_replaceAll_www (by decide) (by decide)]
        exact mem_lowerStr_iff_special (by decide) (by decide) _
      have hbr2 : badBrackets host = false := by
        rw [badBrackets_congr hbf hbf2, hnl]
        exact hbb
      have hclean : ∀ a ∈ ('/' :: t2 : Str), a ≠ '#' ∧ a ≠ '?' ∧ a ≠ ';' := by
        intro a ha
        rw [← hpfix] at ha
        rcases mem_pathFix ha with hap | rfl
        · exact ⟨(hqf a hap).2, (hqf a hap).1, hsemi a hap⟩
        · exact ⟨by decide, by decide, by decide⟩
      have hvne2 : (sch ++ ':' :: '/' :: '/' :: (host ++ '/' :: t2) : Str) ≠ [] := by
        rcases hs with rfl | rfl <;> simp
      unfold normalize_url
      rw [if_neg hvne2]
      dsimp only
      rw [withScheme_of_canonical _ hs]
      rw [urlparseM_canon_eval hs hhostchar hbr2 hclean]
      dsimp only
      have hlow : lowerStr host = host := by
        apply lowerStr_fix
        intro c hc
        exact lowerC_fix_of_mem_lowerStr (hhost_mem c hc)
      rw [hlow]
      rw [replaceAll_of_no_sub hww]
      have hpf2 : pathFix ('/' :: t2) = '/' :: t2 := by
        rw [← hpfix, pathFix_idem, hpfix]
      rw [hpf2]
      rw [urlunparse_canon hs]

/-- C4 witness: a well-formed URL with a `www.`-free host is a fixed point
of a second canonicalization. -/
theorem c4_idempotent_amended_witness :
    normalize_url (normalize_url (str "https://example.com/a")) =
      normalize_url (str "https://example.com/a") :=
  c4_idempotent_amended (str "https://example.com/a")
    (Or.inr (Or.inr ⟨⟨str "https", str "example.com", str "/a", [], [], []⟩,
      rfl, by decide, by decide, by decide⟩))

/-! ## Lemmas: every link admitted by `extract_links` is in scope and free
of query and fragment -/

theorem isLowerA_iff {c : Char} : isLowerA c = true ↔ 97 ≤ c.toNat ∧ c.toNat ≤ 122 := by
  simp only [isLowerA, Bool.and_eq_true, decide_eq_true_eq, Char.le_def]
  constructor
  · exact fun h => ⟨h.1, h.2⟩
  · exact fun h => ⟨h.1, h.2⟩

theorem schemeChar_ne_qf {a : Char} (h : schemeChar a = true) : a ≠ '?' ∧ a ≠ '#' := by
  constructor
  · intro he; subst he; exact absurd h (by decide)
  · intro he; subst he; exact absurd h (by decide)

theorem netlocChar_ne_qf {a : Char} (h : netlocChar a = true) : a ≠ '?' ∧ a ≠ '#' := by
  constructor
  · intro he; subst he; exact absurd h (by decide)
  · intro he; subst he; exact absurd h (by decide)

theorem mem_path_splits {a : Char} {rest : Str}
    (h : a ∈ (splitAtFirst '?' (splitAtFirst '#' rest).1).1) : a ≠ '?' ∧ a ≠ '#' := by
  obtain ⟨h1, hq⟩ := mem_splitAtFirst_fst h
  obtain ⟨_, hh⟩ := mem_splitAtFirst_fst h1
  exact ⟨hq, hh⟩

theorem splitScheme_fst_clean {url d : Str} {a : Char}
    (hd : ∀ x ∈ d, x ≠ '?' ∧ x ≠ '#')
    (h : a ∈ (splitScheme url d).1) : a ≠ '?' ∧ a ≠ '#' := by
  unfold splitScheme at h
  cases hcs : colonSplit url with
  | none =>
    rw [hcs] at h
    exact hd a h
  | some pr =>
    obtain ⟨b4, aft⟩ := pr
    rw [hcs] at h
    dsimp only at h
    by_cases hc : (b4 ≠ [] && isAlphaA (b4.headD ' ') && b4.all schemeChar) = true
    · rw [if_pos hc] at h
      have hall : b4.all schemeChar = true := by
        simp only [Bool.and_eq_true] at hc
        exact hc.2
      rcases mem_lowerStr h with hm | hrange
      · exact schemeChar_ne_qf (List.all_eq_true.mp hall a hm)
      · refine schemeChar_ne_qf ?_
        unfold schemeChar
        rw [isAlphaA, isLowerA_iff.mpr hrange]
        simp
    · rw [if_neg hc] at h
      exact hd a h

theorem urlsplitM_components {url d : Str} {s n pth q f : Str}
    (hd : ∀ x ∈ d, x ≠ '?' ∧ x ≠ '#')
    (h : urlsplitM url d = .ok (s, n, pth, q, f)) :
    (∀ a ∈ s, a ≠ '?' ∧ a ≠ '#') ∧ (∀ a ∈ n, a ≠ '?' ∧ a ≠ '#') ∧
    (∀ a ∈ pth, a ≠ '?' ∧ a ≠ '#') := by
  unfold urlsplitM at h
  rcases hsp : splitScheme url d with ⟨s0, rest0⟩
  rw [hsp] at h
  dsimp only at h
  unfold urlsplitAfterScheme at h
  by_cases hlead : leadEq (str "//") rest0 = true
  · rw [if_pos hlead] at h
    try dsimp only at h
    by_cases hb : badBrackets ((rest0.drop 2).takeWhile netlocChar) = true
    · rw [if_pos hb] at h
      cases h
    · rw [if_neg hb] at h
      try dsimp only at h
      injection h with h
      obtain ⟨hs, h⟩ := Prod.mk.injEq .. |>.mp h
      obtain ⟨hn, h⟩ := Prod.mk.injEq .. |>.mp h
      obtain ⟨hpt, h⟩ := Prod.mk.injEq .. |>.mp h
      refine ⟨?_, ?_, ?_⟩
      · intro a ha
        rw [← hs] at ha
        exact splitScheme_fst_clean hd (by rw [hsp]; exact ha)
      · intro a ha
        rw [← hn] at ha
        exact netlocChar_ne_qf (List.mem_takeWhile_imp ha)
      · intro a ha
        rw [← hpt] at ha
        exact mem_path_splits ha
  · rw [if_neg hlead] at h
    try dsimp only at h
    by_cases hb : badBrackets ([] : Str) = true
    · rw [if_pos hb] at h
      cases h
    · rw [if_neg hb] at h
      try dsimp only at h
      injection h with h
      obtain ⟨hs, h⟩ := Prod.mk.injEq .. |>.mp h
      obtain ⟨hn, h⟩ := Prod.mk.injEq .. |>.mp h
      obtain ⟨hpt, h⟩ := Prod.mk.injEq .. |>.mp h
      refine ⟨?_, ?_, ?_⟩
      · intro a ha
        rw [← hs] at ha
        exact splitScheme_fst_clean hd (by rw [hsp]; exact ha)
      · intro a ha
        rw [← hn] at ha
        cases ha
      · intro a ha
        rw [← hpt] at ha
        exact mem_path_splits ha

theorem urlparseM_components {url d : Str} {p : UrlParts}
    (hd : ∀ x ∈ d, x ≠ '?' ∧ x ≠ '#')
    (h : urlparseM url d = .ok p) :
    (∀ a ∈ p.scheme, a ≠ '?' ∧ a ≠ '#') ∧ (∀ a ∈ p.netloc, a ≠ '?' ∧ a ≠ '#') ∧
    (∀ a ∈ p.path, a ≠ '?' ∧ a ≠ '#') := by
  unfold urlparseM at h
  cases hsp : urlsplitM url d with
  | error e => rw [hsp] at h; cases h
  | ok tup =>
    obtain ⟨s, n, pth, q, f⟩ := tup
    rw [hsp] at h
    dsimp only at h
    obtain ⟨hsc, hnc, hpc⟩ := urlsplitM_components hd hsp
    by_cases hpar : (uses_params.contains s && pth.contains ';') = true
    · rw [if_pos hpar] at h
      injection h with h
      subst h
      refine ⟨hsc, hnc, ?_⟩
      intro a ha
      exact hpc a (splitparamsPy_fst_subset _ ha)
    · rw [if_neg hpar] at h
      injection h with h
      subst h
      exact ⟨hsc, hnc, hpc⟩

theorem mem_urlunsplitM (s n pth : Str) (a : Char)
    (h : a ∈ urlunsplitM s n pth [] []) :
    a ∈ s ∨ a ∈ n ∨ a ∈ pth ∨ a = ':' ∨ a = '/' := by
  unfold urlunsplitM at h
  dsimp only at h
  rw [if_neg (by simp), if_neg (by simp)] at h
  split at h
  · rcases List.mem_append.mp h with hs | h2
    · exact Or.inl hs
    · rcases List.mem_cons.mp h2 with rfl | h3
      · exact Or.inr (Or.inr (Or.inr (Or.inl rfl)))
      · split at h3
        · rcases List.mem_append.mp h3 with h4 | h5
          · rcases List.mem_append.mp h4 with h6 | h7
            · have h9 : a ∈ ['/', '/'] := h6
              rcases List.mem_cons.mp h9 with rfl | h8
              · exact Or.inr (Or.inr (Or.inr (Or.inr rfl)))
              · have : a = '/' := by simpa using h8
                exact Or.inr (Or.inr (Or.inr (Or.inr this)))
            · exact Or.inr (Or.inl h7)
          · split at h5
            · rcases List.mem_cons.mp h5 with rfl | h9
              · exact Or.inr (Or.inr (Or.inr (Or.inr rfl)))
              · exact Or.inr (Or.inr (Or.inl h9))
            · exact Or.inr (Or.inr (Or.inl h5))
        · split at h3
          · rcases List.mem_append.mp h3 with h6 | h7
            · have h9 : a ∈ ['/', '/'] := h6
              rcases List.mem_cons.mp h9 with rfl | h8
              · exact Or.inr (Or.inr (Or.inr (Or.inr rfl)))
              · have : a = '/' := by simpa using h8
                exact Or.inr (Or.inr (Or.inr (Or.inr this)))
            · exact Or.inr (Or.inr (Or.inl h7))
          · split at h3
            · rcases List.mem_append.mp h3 with h6 | h7
              · have h9 : a ∈ ['/', '/'] := h6
                rcases List.mem_cons.mp h9 with rfl | h8
                · exact Or.inr (Or.inr (Or.inr (Or.inr rfl)))
                · have : a = '/' := by simpa using h8
                  exact Or.inr (Or.inr (Or.inr (Or.inr this)))
              · exact Or.inr (Or.inr (Or.inl h7))
            · exact Or.inr (Or.inr (Or.inl h3))
  · split at h
    · rcases List.mem_append.mp h with h4 | h5
      · rcases List.mem_append.mp h4 with h6 | h7
        · have h9 : a ∈ ['/', '/'] := h6
          rcases List.mem_cons.mp h9 with rfl | h8
          · exact Or.inr (Or.inr (Or.inr (Or.inr rfl)))
          · have : a = '/' := by simpa using h8
            exact Or.inr (Or.inr (Or.inr (Or.inr this)))
        · exact Or.inr (Or.inl h7)
      · split at h5
        · rcases List.mem_cons.mp h5 with rfl | h9
          · exact Or.inr (Or.inr (Or.inr (Or.inr rfl)))
          · exact Or.inr (Or.inr (Or.inl h9))
        · exact Or.inr (Or.inr (Or.inl h5))
    · split at h
      · rcases List.mem_append.mp h with h6 | h7
        · have h9 : a ∈ ['/', '/'] := h6
          rcases List.mem_cons.mp h9 with rfl | h8
          · exact Or.inr (Or.inr (Or.inr (Or.inr rfl)))
          · have : a = '/' := by simpa using h8
            exact Or.inr (Or.inr (Or.inr (Or.inr this)))
        · exact Or.inr (Or.inr (Or.inl h7))
      · split at h
        · rcases List.mem_append.mp h with h6 | h7
          · have h9 : a ∈ ['/', '/'] := h6
            rcases List.mem_cons.mp h9 with rfl | h8
            · exact Or.inr (Or.inr (Or.inr (Or.inr rfl)))
            · have : a = '/' := by simpa using h8
              exact Or.inr (Or.inr (Or.inr (Or.inr this)))
          · exact Or.inr (Or.inr (Or.inl h7))
        · exact Or.inr (Or.inr (Or.inl h))

theorem clean_url_no_qf {absolute : Str} {p : UrlParts} {a : Char}
    (hp : urlparseM absolute [] = .ok p)
    (h : a ∈ urlunsplitM p.scheme p.netloc p.path [] []) :
    a ≠ '?' ∧ a ≠ '#' := by
  obtain ⟨hsc, hnc, hpc⟩ := urlparseM_components (by intro x hx; cases hx) hp
  rcases mem_urlunsplitM _ _ _ _ h with hs | hn | hpth | rfl | rfl
  · exact hsc a hs
  · exact hnc a hn
  · exact hpc a hpth
  · exact ⟨by decide, by decide⟩
  · exact ⟨by decide, by decide⟩

theorem extract_links_go_sound (base_url base_domain : Str) :
    ∀ (hrefs : List (Tag × Str)) (acc : List Str),
      (∀ l ∈ acc, is_valid_url l base_domain = true ∧ ∀ a ∈ l, a ≠ '?' ∧ a ≠ '#') →
      ∀ l ∈ extract_links_go base_url base_domain hrefs acc,
        is_valid_url l base_domain = true ∧ ∀ a ∈ l, a ≠ '?' ∧ a ≠ '#' := by
  intro hrefs
  induction hrefs with
  | nil => intro acc hacc l hl; exact hacc l hl
  | cons th rest ih =>
    obtain ⟨tag, href⟩ := th
    intro acc hacc l hl
    unfold extract_links_go at hl
    split at hl
    · exact ih acc hacc l hl
    · split at hl
      · exact ih acc hacc l hl
      · rename_i absolute hj
        split at hl
        · exact hacc l hl
        · rename_i p hp
          dsimp only at hl
          split at hl
          · rename_i hvalid
            refine ih _ ?_ l hl
            intro l' hl'
            by_cases hmem : acc.contains (urlunsplitM p.scheme p.netloc p.path [] []) = true
            · rw [if_pos hmem] at hl'
              exact hacc l' hl'
            · rw [if_neg hmem] at hl'
              rcases List.mem_append.mp hl' with hacc' | hnew
              · exact hacc l' hacc'
              · have heq : l' = urlunsplitM p.scheme p.netloc p.path [] [] := by
                  simpa using hnew
                subst heq
                exact ⟨hvalid, fun a ha => clean_url_no_qf hp ha⟩
          · exact ih acc hacc l hl

/-- C2 (amended): every URL returned by `extract_links` satisfies
`is_valid_url` (`in_scope`) with respect to the base domain and contains
neither `?` nor `#` (query and fragment are stripped); full §4.1
canonicalization (host lowercasing, `www.` stripping, trailing-slash
stripping) is *not* applied — see `c2_counterexample`. -/
theorem c2_extract_links_amended (doc : HtmlDoc) (base_url base_domain : Str) :
    ∀ l ∈ extract_links doc base_url base_domain,
      is_valid_url l base_domain = true ∧ ∀ a ∈ l, a ≠ '?' ∧ a ≠ '#' := by
  intro l hl
  exact extract_links_go_sound base_url base_domain doc.hrefs []
    (by intro x hx; cases hx) l hl

/-- C2 witness: the concretely admitted link is in scope and free of `?`
and `#`. -/
theorem c2_extract_links_amended_witness :
    is_valid_url (str "https://WWW.a.test/x/") (str "a.test") = true ∧
    ∀ a ∈ str "https://WWW.a.test/x/", a ≠ '?' ∧ a ≠ '#' :=
  c2_extract_links_amended ⟨[(Tag.a, str "https://WWW.a.test/x/")], []⟩ rootUrl
    (str "a.test") (str "https://WWW.a.test/x/") (by decide)

/-! ## C8: no URL is fetched twice in one crawl -/

/-- The invariant carried through the BFS phase: the fetch log has no
duplicates, and every fetched URL is in the visited set. -/
def fetchInv (st : CrawlState) : Prop :=
  st.fetched.Nodup ∧ ∀ u ∈ st.fetched, u ∈ st.visited

theorem recordEmail_vf (url : Str) (pid : Nat) (s : CrawlState) (raw : Str) :
    (recordEmail url pid s raw).visited = s.visited ∧
    (recordEmail url pid s raw).fetched = s.fetched := by
  unfold recordEmail
  cases normalize_email raw <;> dsimp only
  · exact ⟨rfl, rfl⟩
  · split <;> exact ⟨rfl, rfl⟩

theorem enqueueLink_vf (d : Nat) (s : CrawlState) (link : Str) :
    (enqueueLink d s link).visited = s.visited ∧
    (enqueueLink d s link).fetched = s.fetched := by
  unfold enqueueLink
  split <;> exact ⟨rfl, rfl⟩

theorem foldl_vf {α : Type} (f : CrawlState → α → CrawlState)
    (hf : ∀ s x, (f s x).visited = s.visited ∧ (f s x).fetched = s.fetched) :
    ∀ (l : List α) (s : CrawlState),
      (l.foldl f s).visited = s.visited ∧ (l.foldl f s).fetched = s.fetched := by
  intro l
  induction l with
  | nil => intro s; exact ⟨rfl, rfl⟩
  | cons x xs ih =>
    intro s
    have h1 := hf s x
    have h2 := ih (f s x)
    exact ⟨h2.1.trans h1.1, h2.2.trans h1.2⟩

/-- `process_url` either leaves `visited` and `fetched` unchanged, or (when
the url is fresh and shallow enough) appends the url to both. -/
theorem process_url_vf (env : CrawlEnv) (md : Nat) (bd : Str)
    (st : CrawlState) (d : Nat) (url : Str) :
    ((process_url env md bd st d url).visited = st.visited ∧
     (process_url env md bd st d url).fetched = st.fetched) ∨
    (url ∉ st.visited ∧
     (process_url env md bd st d url).visited = st.visited ++ [url] ∧
     (process_url env md bd st d url).fetched = st.fetched ++ [url]) := by
  unfold process_url
  by_cases hg : (d > md || st.visited.contains url) = true
  · rw [if_pos hg]; exact .inl ⟨rfl, rfl⟩
  · rw [if_neg hg]
    simp only [Bool.or_eq_true, not_or] at hg
    have hnv : url ∉ st.visited := by
      intro hmem
      exact hg.2 (by simpa using hmem)
    dsimp only
    rcases hfp : fetch_page env url with ⟨html, sc⟩
    dsimp only
    by_cases hpi : env.pageInsertOk url = true
    · rw [if_pos hpi]
      dsimp only
      cases html with
      | none => exact .inr ⟨hnv, rfl, rfl⟩
      | some doc =>
        dsimp only
        have h1 := foldl_vf (recordEmail url (st.db.pages.length + 1))
          (recordEmail_vf url (st.db.pages.length + 1))
          (extract_emails_from_html doc)
        by_cases hd : d < md
        · rw [if_pos hd]
          have h2 := foldl_vf (enqueueLink d) (enqueueLink_vf d)
          refine .inr ⟨hnv, ?_, ?_⟩
          · rw [(h2 _ _).1, (h1 _).1]
          · rw [(h2 _ _).2, (h1 _).2]
        · rw [if_neg hd]
          exact .inr ⟨hnv, (h1 _).1, (h1 _).2⟩
    · rw [if_neg hpi]
      dsimp only
      exact .inr ⟨hnv, rfl, rfl⟩

theorem process_url_inv (env : CrawlEnv) (md : Nat) (bd : Str)
    (st : CrawlState) (d : Nat) (url : Str) (h : fetchInv st) :
    fetchInv (process_url env md bd st d url) := by
  rcases process_url_vf env md bd st d url with ⟨hv, hf⟩ | ⟨hnv, hv, hf⟩
  · exact ⟨hf ▸ h.1, fun u hu => hv ▸ h.2 u (hf ▸ hu)⟩
  · constructor
    · rw [hf, List.nodup_append]
      refine ⟨h.1, List.nodup_singleton url, ?_⟩
      intro a ha hb
      rw [List.mem_singleton] at hb
      subst hb
      exact hnv (h.2 a ha)
    · intro u hu
      rw [hf] at hu
      rw [hv]
      rcases List.mem_append.mp hu with h1 | h1
      · exact List.mem_append.mpr (.inl (h.2 u h1))
      · exact List.mem_append.mpr (.inr h1)

theorem runTasks_inv (env : CrawlEnv) (md : Nat) (bd : Str) :
    ∀ (tasks : List (Nat × Str)) (st : CrawlState), fetchInv st →
      fetchInv (runTasks env md bd tasks st) := by
  intro tasks
  induction tasks with
  | nil => intro st h; exact h
  | cons t ts ih =>
    intro st h
    exact ih _ (process_url_inv env md bd st t.1 t.2 h)

theorem crawlLoop_inv (env : CrawlEnv) (md : Nat) (bd : Str) :
    ∀ (fuel : Nat) (tasks : List (Nat × Str)) (st : CrawlState), fetchInv st →
      fetchInv (crawlLoop env md bd fuel tasks st) := by
  intro fuel
  induction fuel with
  | zero =>
    intro tasks st h
    rw [crawlLoop]
    split
    · split
      · exact h
      · exact runTasks_inv env md bd tasks st h
    · try dsimp only
      split
      · exact h
      · exact runTasks_inv env md bd tasks st h
  | succ n ih =>
    intro tasks st h
    rw [crawlLoop]
    split
    · split
      · exact h
      · exact runTasks_inv env md bd tasks st h
    · dsimp only
      have h' : fetchInv { st with queue := st.queue.drop (min 50 st.queue.length) } :=
        ⟨h.1, h.2⟩
      split
      · exact ih _ _ (runTasks_inv env md bd _ _ h')
      · exact ih _ _ h'

/-- **C8.** During a single `crawl_domain` run, no URL is ever fetched
twice: every URL is added to `visited` before its `fetch_page` call and
`process_url` skips URLs already in `visited`, so the chronological list of
URLs passed to `fetch_page` over the whole BFS phase contains no duplicate,
for every environment, depth bound, start URL, worker id and initial
database. -/
theorem c8_no_double_fetch (env : CrawlEnv) (maxDepth : Nat) (url wid : Str)
    (db0 : Db) :
    (crawlStateOf env maxDepth url wid db0).fetched.Nodup := by
  unfold crawlStateOf
  dsimp only
  exact (crawlLoop_inv env maxDepth (extract_domain url) env.fuel []
    { visited := [], fetched := [], emailsMap := [], queue := [(0, url)], db := _ }
    ⟨List.nodup_nil, fun u hu => absurd hu (List.not_mem_nil u)⟩).1
